import Mathlib

/-!
Verification of the Treemux implementation worker
(`src/worker/implementation_worker.py`, inlined runner `_RUN_IMPL_SOURCE`).

The runner consumes a stream of agent messages, parses a numbered plan from
the first non-empty text block, classifies every later text block into a
step summary, and for each step posts a callback event and performs a
best-effort git commit/push plus a Vercel deployment trigger.

Strings are modeled as `List Char`.  Python regular expressions are modeled
by executable functions that reproduce the backtracking semantics of the
concrete patterns used in the source (derivations are given at each
definition).  `\s` and `\d` are modeled at their ASCII meaning, which is
exhaustive for the characters the worker manipulates.
-/

namespace Treemux

/-- Python `\s` (ASCII range): space, tab, newline, carriage return,
vertical tab, form feed. -/
def isWS (c : Char) : Bool :=
  c == ' ' || c == '\t' || c == '\n' || c == '\r' || c == '\x0b' || c == '\x0c'

/-- The separator class `[-—]` of the plan regex: hyphen-minus or em dash. -/
def isHyphen (c : Char) : Bool :=
  c == '-' || c == '—'

/-- Python `str.lstrip()`. -/
def lstrip (l : List Char) : List Char := l.dropWhile isWS

/-- Python `str.rstrip()`. -/
def rstrip (l : List Char) : List Char := (l.reverse.dropWhile isWS).reverse

/-- Python `str.strip()`. -/
def pstrip (l : List Char) : List Char := rstrip (lstrip l)

/-- Python `text.split("\n")`: split on every newline; `n` pieces for
`n-1` newlines, empty pieces kept. -/
def splitNL : List Char → List (List Char)
  | [] => [[]]
  | c :: rest =>
    match splitNL rest with
    | [] => [[]]
    | hd :: tl => if c == '\n' then [] :: hd :: tl else (c :: hd) :: tl

/-- `lines = [l.strip() for l in text.split("\n") if l.strip()]`
(run_agent, plan branch). -/
def nonemptyLines (text : List Char) : List (List Char) :=
  ((splitNL text).map pstrip).filter (fun l => !l.isEmpty)

/-- Does `r` match the optional description group `\s*[-—]\s*.+` of the
plan regex (anchored at both ends)?  Because `.` also matches whitespace,
this holds exactly when `r` is a whitespace run, then a hyphen/em-dash, then
at least one further character. -/
def descSep (r : List Char) : Bool :=
  match r.dropWhile isWS with
  | c :: x => isHyphen c && !x.isEmpty
  | [] => false

/-- Capture of the non-greedy group `(.+?)` in
`^(\d+)\.\s*(.+?)(?:\s*[-—]\s*.+)?$`: the shortest non-empty prefix of
`t` whose remainder is either empty or matches the description group. -/
def takeLabel : List Char → List Char
  | [] => []
  | c :: rest => if descSep rest then [c] else c :: takeLabel rest

/-- `re.match(r"^(\d+)\.\s*(.+?)(?:\s*[-—]\s*.+)?$", l)` followed by
`m.group(2).strip()`, returning `none` when the regex does not match.
The leading `(\d+)` is greedy over a class disjoint from `\.`, so it is the
maximal digit run; `\s*` then consumes the maximal whitespace run (if the
whole rest is whitespace the engine backtracks one character into `\s*` and
`(.+?)` captures a single whitespace character, which strips to empty). -/
def matchPlanLine (l : List Char) : Option (List Char) :=
  let digits := l.takeWhile Char.isDigit
  if digits.isEmpty then none
  else
    match l.drop digits.length with
    | '.' :: s =>
      let t := s.dropWhile isWS
      if t.isEmpty then
        if s.isEmpty then none else some []
      else some (pstrip (takeLabel t))
    | _ => none

/-- Plan extraction of the first message (run_agent): append the labels of
the numbered lines to the current `plan_steps`; if the result is empty,
extend with the first six non-empty trimmed lines. -/
def extendPlan (cur : List (List Char)) (text : List Char) : List (List Char) :=
  let lines := nonemptyLines text
  let p := cur ++ lines.filterMap matchPlanLine
  if p.isEmpty then p ++ lines.take 6 else p

/-- The plan parsed from the first message (`plan_steps` is empty there). -/
def planStepsOf (text : List Char) : List (List Char) :=
  extendPlan [] text

/-- `total_steps[0] = len(plan_steps) or 6`. -/
def totalStepsOf (text : List Char) : Nat :=
  let n := (planStepsOf text).length
  if n == 0 then 6 else n

/-- `re.match(r"^\[STEP\s+(\d+)/(\d+)\]\s*(.+)", text, re.IGNORECASE)`
followed by `step_m.group(3).strip()`, `none` when there is no match.
`(.+)` is greedy and `.` stops at a newline, so the capture runs from the
first non-whitespace character after `]` to the next newline; when the rest
is pure whitespace the engine backtracks into `\s*` and the capture is a
whitespace run, which strips to empty (and there is no match if the rest is
empty or newlines only). -/
def matchStepHeader (text : List Char) : Option (List Char) :=
  match text with
  | b :: c1 :: c2 :: c3 :: c4 :: rest =>
    if b == '[' && c1.toLower == 's' && c2.toLower == 't'
        && c3.toLower == 'e' && c4.toLower == 'p' then
      let ws := rest.takeWhile isWS
      if ws.isEmpty then none
      else
        let r1 := rest.dropWhile isWS
        let d1 := r1.takeWhile Char.isDigit
        if d1.isEmpty then none
        else
          match r1.drop d1.length with
          | x :: r2 =>
            if x == '/' then
              let d2 := r2.takeWhile Char.isDigit
              if d2.isEmpty then none
              else
                match r2.drop d2.length with
                | y :: r3 =>
                  if y == ']' then
                    let u := r3.dropWhile isWS
                    if !u.isEmpty then some (pstrip (u.takeWhile (fun c => c ≠ '\n')))
                    else if !r3.isEmpty && r3.any (fun c => c ≠ '\n') then some []
                    else none
                  else none
                | [] => none
            else none
          | [] => none
    else none
  | _ => none

/-- Decimal rendering of a natural number (Python `"%s" % n` for `n ≥ 0`). -/
def natStr (n : Nat) : List Char := (Nat.repr n).toList

/-- Step classification of a non-first message (run_agent): an explicit
`[STEP i/N] label` header wins; otherwise the plan label at the cursor;
otherwise `"Implementing step %s" % (step_index[0] + 1)`. -/
def classify (text : List Char) (cursor : Nat) (plan : List (List Char)) : List Char :=
  match matchStepHeader text with
  | some s => s
  | none =>
    if h : cursor < plan.length then plan.get ⟨cursor, h⟩
    else "Implementing step ".toList ++ natStr (cursor + 1)

/-! ## Run model

The runner's observable behavior is modeled as a list of actions: callback
posts (`_post`), attempted git commands inside `commit_and_push`, Vercel
deployment-creation requests, and log lines where a claim mentions them.
Outcomes of external calls (subprocess exit status, HTTP responses) are
supplied by an `Oracle`. -/

/-- A JSON-ish payload value (the worker only posts strings, ints, bools,
`None` and the list of plan labels). -/
inductive JVal
  | s (v : List Char)
  | i (v : Int)
  | b (v : Bool)
  | null
  | strs (v : List (List Char))
deriving DecidableEq

/-- Attempted git commands of `commit_and_push`.  `commit` records the
`-m` message and the presence of `--allow-empty`; `push` records the branch
(`--force -u origin` are fixed by the source). -/
inductive GitCmd
  | add
  | commit (msg : List Char) (allowEmpty : Bool)
  | push (branch : List Char)
deriving DecidableEq

/-- Body of the Vercel deployment-creation request
(`POST https://api.vercel.com/v13/deployments`); `gitSource.type` is the
constant `"github"`. -/
structure DeployReq where
  name : List Char
  target : List Char
  org : List Char
  repo : List Char
  ref : List Char
deriving DecidableEq

/-- One observable action of the runner. -/
inductive Action
  | post (path : List Char) (payload : List (List Char × JVal))
  | git (cmd : GitCmd)
  | deploy (r : DeployReq)
  | log (msg : List Char)
deriving DecidableEq

/-- Job configuration as read from the environment (`_env(...) or None`
yields `none` or a non-empty string, but the model matches Python's
truthiness tests so arbitrary values are handled faithfully). -/
structure Config where
  jobId : List Char
  idea : List Char
  branch : List Char
  repoUrl : Option (List Char)
  githubToken : Option (List Char)
  vercelToken : Option (List Char)
  openrouterKey : List Char
  temperature : Int
  risk : Int

/-- Python truthiness of an optional string. -/
def truthy : Option (List Char) → Bool
  | some s => !s.isEmpty
  | none => false

/-- Outcomes of the external calls: git exit statuses (keyed by the step
index of the publishing call), the texts of raised exceptions and captured
stderr, the Vercel response body's `url` (`none` when the request raises),
and the OpenRouter pitch content (`none` when absent or the call raises). -/
structure Oracle where
  initOk : Bool
  initErrTxt : List Char
  initStderrTxt : List Char
  addOk : Nat → Bool
  commitOk : Nat → Bool
  pushOk : Nat → Bool
  pushErrTxt : Nat → List Char
  pushStderrTxt : Nat → List Char
  deployResp : Nat → Option (List Char)
  pitchResp : Option (List Char)

/-- Python `s.replace(pat, rep)` for a non-empty pattern: non-overlapping
left-to-right replacement of every occurrence. -/
def replaceAll (s pat rep : List Char) : List Char :=
  match h : s with
  | [] => []
  | c :: rest =>
    if hp : !pat.isEmpty && pat.isPrefixOf s then
      rep ++ replaceAll (s.drop pat.length) pat rep
    else c :: replaceAll rest pat rep
termination_by s.length
decreasing_by
  · simp only [Bool.and_eq_true, List.isPrefixOf_iff_prefix] at hp
    have h1 : pat.length ≤ s.length := hp.2.length_le
    have h2 : 0 < pat.length := by
      cases pat with
      | nil => simp at hp
      | cons a l => simp
    simp only [List.length_drop]
    subst h
    simp only [List.length_cons] at h1 ⊢
    omega
  · subst h; simp

/-- `push_url` after the git-setup phase: set when `repo_url` and
`github_token` are truthy (with the access token spliced into the URL),
and reset to `None` when any of the five `git` setup commands failed. -/
def pushUrlOf (cfg : Config) (ora : Oracle) : Option (List Char) :=
  match cfg.repoUrl, cfg.githubToken with
  | some u, some t =>
    if !u.isEmpty && !t.isEmpty && ora.initOk then
      some (replaceAll u "https://".toList
        ("https://x-access-token:".toList ++ t ++ "@".toList))
    else none
  | _, _ => none

/-- `re.match(r"https://github\.com/([^/]+)/([^/]+?)(?:\.git)?$", repo_url)`
returning `(org, repo_name)`.  The greedy `([^/]+)` cannot cross a slash,
so `org` is the segment up to the first `/` of the remainder; the
non-greedy name drops one trailing `.git` when that leaves it non-empty.
(The `$` subtlety of matching before a final newline cannot arise: the URL
comes from `_env`, which strips whitespace.) -/
def parseGithubUrl (url : List Char) : Option (List Char × List Char) :=
  let pre := "https://github.com/".toList
  if pre.isPrefixOf url then
    let r := url.drop pre.length
    let org := r.takeWhile (fun c => c ≠ '/')
    if org.isEmpty then none
    else
      match r.drop org.length with
      | x :: nm =>
        if x ≠ '/' then none
        else if nm.isEmpty || nm.any (fun c => c = '/') then none
        else if ".git".toList.isSuffixOf nm && decide (4 < nm.length) then
          some (org, nm.take (nm.length - 4))
        else some (org, nm)
      | [] => none
  else none

/-- `trigger_vercel_deploy()`: a no-op without a truthy deploy credential
and repository URL; unparseable URLs are logged and skipped; otherwise one
deployment-creation request is issued, and when it returns a body the
response URL is normalized and posted as a `deployment` event. -/
def triggerVercelDeploy (cfg : Config) (ora : Oracle) (idx : Nat) : List Action :=
  match cfg.vercelToken, cfg.repoUrl with
  | some tok, some url =>
    if tok.isEmpty || url.isEmpty then []
    else
      match parseGithubUrl url with
      | none => [.log ("cannot parse repo_url for Vercel: ".toList ++ url)]
      | some (org, nm) =>
        let req : DeployReq :=
          { name := nm, target := "production".toList, org := org, repo := nm, ref := cfg.branch }
        match ora.deployResp idx with
        | none => [.deploy req]
        | some body =>
          let u := if !body.isEmpty && !("http".toList.isPrefixOf body) then
            "https://".toList ++ body else body
          [.deploy req,
           .log ("Vercel deployment triggered: ".toList ++ u),
           .post "/v1.0/log/deployment".toList
             [("jobId".toList, .s cfg.jobId), ("url".toList, .s u)]]
  | _, _ => []

/-- Commit message `"Step %s: %s" % (step_index, summary[:72])`. -/
def commitMsgOf (idx : Nat) (summary : List Char) : List Char :=
  "Step ".toList ++ natStr idx ++ ": ".toList ++ summary.take 72

/-- Error event posted when a git command of `commit_and_push` fails. -/
def pushErrorPost (cfg : Config) (ora : Oracle) (idx : Nat) : Action :=
  .post "/v1.0/log/error".toList
    [("jobId".toList, .s cfg.jobId),
     ("error".toList, .s ("git push failed at step ".toList ++ natStr idx
        ++ ": ".toList ++ ora.pushErrTxt idx)),
     ("stderr".toList, .s (ora.pushStderrTxt idx)),
     ("phase".toList, .s "git_push".toList)]

/-- Payload of the `push` event posted after a successful `git push`. -/
def pushPayload (cfg : Config) (idx : Nat) (summary : List Char) :
    List (List Char × JVal) :=
  [("jobId".toList, .s cfg.jobId),
   ("stepIndex".toList, .i idx),
   ("branch".toList, .s cfg.branch),
   ("summary".toList, .s summary)]

/-- Push event posted after a successful `git push`. -/
def pushPost (cfg : Config) (idx : Nat) (summary : List Char) : Action :=
  .post "/v1.0/log/push".toList (pushPayload cfg idx summary)

/-- `commit_and_push(step_index, summary)`: immediate return when
`push_url` is unset; otherwise `git add -A`, an `--allow-empty` commit and
a force push in sequence, stopping at the first failure (which is logged
and reported on the error channel); on success the push event is posted
and the Vercel trigger runs. -/
def commitAndPush (cfg : Config) (ora : Oracle) (idx : Nat) (summary : List Char) :
    List Action :=
  if (pushUrlOf cfg ora).isNone then []
  else if !ora.addOk idx then
    [.git .add,
     .log ("git push step ".toList ++ natStr idx ++ " failed".toList),
     pushErrorPost cfg ora idx]
  else if !ora.commitOk idx then
    [.git .add, .git (.commit (commitMsgOf idx summary) true),
     .log ("git push step ".toList ++ natStr idx ++ " failed".toList),
     pushErrorPost cfg ora idx]
  else if !ora.pushOk idx then
    [.git .add, .git (.commit (commitMsgOf idx summary) true), .git (.push cfg.branch),
     .log ("git push step ".toList ++ natStr idx ++ " failed".toList),
     pushErrorPost cfg ora idx]
  else
    [.git .add, .git (.commit (commitMsgOf idx summary) true), .git (.push cfg.branch),
     .log ("pushed step ".toList ++ natStr idx),
     pushPost cfg idx summary]
    ++ triggerVercelDeploy cfg ora idx

/-- Mutable cells of the runner closure: `plan_steps`, `total_steps[0]`,
`step_index[0]`, `started_sent[0]`. -/
structure RunState where
  planSteps : List (List Char)
  totalSteps : Nat
  stepIndex : Nat
  startedSent : Bool
deriving DecidableEq

/-- Initial state of `run_agent`. -/
def initState : RunState := ⟨[], 0, 0, false⟩

/-- Payload of a `step` event. -/
def stepPayload (cfg : Config) (idx : Nat) (total : Nat) (done : Bool)
    (summary : List Char) : List (List Char × JVal) :=
  [("jobId".toList, .s cfg.jobId),
   ("stepIndex".toList, .i idx),
   ("totalSteps".toList, .i total),
   ("done".toList, .b done),
   ("summary".toList, .s summary)]

/-- `send_step(summary, done)`: post the step event, then publish. -/
def sendStep (cfg : Config) (ora : Oracle) (st : RunState) (summary : List Char)
    (done : Bool) : List Action :=
  .post "/v1.0/log/step".toList (stepPayload cfg st.stepIndex st.totalSteps done summary)
    :: commitAndPush cfg ora st.stepIndex summary

/-- Payload of the `start` event. -/
def startPayload (cfg : Config) (total : Nat) (plan : List (List Char)) :
    List (List Char × JVal) :=
  [("jobId".toList, .s cfg.jobId),
   ("idea".toList, .s cfg.idea),
   ("temperature".toList, .i cfg.temperature),
   ("risk".toList, .i cfg.risk),
   ("branch".toList, .s cfg.branch),
   ("totalSteps".toList, .i total),
   ("planSteps".toList, .strs plan)]

/-- Processing of one non-empty stripped text block: the first such block
parses the plan and posts the start event; every later one is classified
and dispatched through `send_step`, after which the cursor advances. -/
def processText (cfg : Config) (ora : Oracle) (st : RunState) (t : List Char) :
    RunState × List Action :=
  if !st.startedSent then
    let plan := extendPlan st.planSteps t
    let total := if plan.length == 0 then 6 else plan.length
    ({ st with startedSent := true, planSteps := plan, totalSteps := total },
     [.post "/v1.0/log/start".toList (startPayload cfg total plan)])
  else
    let summary := classify t st.stepIndex st.planSteps
    ({ st with stepIndex := st.stepIndex + 1 }, sendStep cfg ora st summary false)

/-- A content block of an assistant message (`TextBlock` or anything
else, which the runner ignores). -/
inductive Block
  | text (s : List Char)
  | other

/-- One message of the agent stream. -/
inductive Msg
  | assistant (blocks : List Block)
  | result
  | other

/-- Block filter `isinstance(block, TextBlock) and block.text.strip()`. -/
def processBlock (cfg : Config) (ora : Oracle) (st : RunState) :
    Block → RunState × List Action
  | .text s =>
    let t := pstrip s
    if t.isEmpty then (st, []) else processText cfg ora st t
  | .other => (st, [])

/-- Fold of `processBlock` over a message's content. -/
def processBlocks (cfg : Config) (ora : Oracle) :
    RunState → List Block → RunState × List Action
  | st, [] => (st, [])
  | st, b :: bs =>
    let r1 := processBlock cfg ora st b
    let r2 := processBlocks cfg ora r1.1 bs
    (r2.1, r1.2 ++ r2.2)

/-- Dispatch on the message type: text blocks of an `AssistantMessage` are
processed in order; a `ResultMessage` sends the final
`send_step("Build complete", True)` (without advancing the cursor);
anything else is ignored. -/
def processMsg (cfg : Config) (ora : Oracle) (st : RunState) :
    Msg → RunState × List Action
  | .assistant blocks => processBlocks cfg ora st blocks
  | .result => (st, sendStep cfg ora st "Build complete".toList true)
  | .other => (st, [])

/-- `run_agent()`: consume the stream message by message. -/
def runMsgs (cfg : Config) (ora : Oracle) :
    RunState → List Msg → RunState × List Action
  | st, [] => (st, [])
  | st, m :: ms =>
    let r1 := processMsg cfg ora st m
    let r2 := runMsgs cfg ora r1.1 ms
    (r2.1, r1.2 ++ r2.2)

/-- Git-setup phase: attempted only when `repo_url` and `github_token` are
truthy; on failure the error is logged and reported with phase
`"git_init"` (and `push_url` stays `None`, see `pushUrlOf`). -/
def gitInitActions (cfg : Config) (ora : Oracle) : List Action :=
  match cfg.repoUrl, cfg.githubToken with
  | some u, some t =>
    if !u.isEmpty && !t.isEmpty && !ora.initOk then
      [.log ("git init failed: ".toList ++ ora.initErrTxt),
       .post "/v1.0/log/error".toList
         [("jobId".toList, .s cfg.jobId),
          ("error".toList, .s ("git init failed: ".toList ++ ora.initErrTxt)),
          ("stderr".toList, .s ora.initStderrTxt),
          ("phase".toList, .s "git_init".toList)]]
    else []
  | _, _ => []

/-- Python `str.rstrip(".")`. -/
def rstripDots (l : List Char) : List Char :=
  (l.reverse.dropWhile (fun c => c = '.')).reverse

/-- The pitch posted in the `done` event: the stripped OpenRouter content
when a key is configured and the call returned non-blank text, else the
fixed fallback string built from the idea. -/
def pitchVal (cfg : Config) (ora : Oracle) : List Char :=
  let fallback := "We built a production-ready app that ".toList
    ++ rstripDots (cfg.idea.take 200)
    ++ " — deployed live and ready to demo.".toList
  if cfg.openrouterKey.isEmpty then fallback
  else
    match ora.pitchResp with
    | none => fallback
    | some p => let q := pstrip p; if q.isEmpty then fallback else q

/-- Payload of the terminal `done` event:
`success = bool(repo_url or not github_token)`, `error = None`. -/
def donePayload (cfg : Config) (ora : Oracle) : List (List Char × JVal) :=
  [("jobId".toList, .s cfg.jobId),
   ("repoUrl".toList, .s (cfg.repoUrl.getD [])),
   ("idea".toList, .s cfg.idea),
   ("pitch".toList, .s (pitchVal cfg ora)),
   ("success".toList, .b (truthy cfg.repoUrl || !truthy cfg.githubToken)),
   ("error".toList, .null),
   ("branch".toList, .s cfg.branch)]

/-- `main()` at the modeled granularity: git setup, the agent run, then
the terminal `done` post. -/
def mainTrace (cfg : Config) (ora : Oracle) (msgs : List Msg) : List Action :=
  gitInitActions cfg ora
    ++ (runMsgs cfg ora initState msgs).2
    ++ [.post "/v1.0/log/done".toList (donePayload cfg ora)]

/-! ## Trace observers -/

/-- The payload of an action when it is a post to the given path. -/
def postSel (path : List Char) : Action → Option (List (List Char × JVal))
  | .post p pay => if p = path then some pay else none
  | _ => none

/-- Payloads of the `step` events of a trace, in order. -/
def stepEvents (tr : List Action) : List (List (List Char × JVal)) :=
  tr.filterMap (postSel "/v1.0/log/step".toList)

/-- Payloads of the `push` events of a trace, in order. -/
def pushEvents (tr : List Action) : List (List (List Char × JVal)) :=
  tr.filterMap (postSel "/v1.0/log/push".toList)

/-- The git command of an action, if any. -/
def gitSel : Action → Option GitCmd
  | .git c => some c
  | _ => none

/-- Git commands of a trace, in order. -/
def gitCmds (tr : List Action) : List GitCmd :=
  tr.filterMap gitSel

/-- The deployment request of an action, if any. -/
def deploySel : Action → Option DeployReq
  | .deploy r => some r
  | _ => none

/-- Deployment-creation requests of a trace, in order. -/
def deployReqs (tr : List Action) : List DeployReq :=
  tr.filterMap deploySel

/-- The path/payload pair of an action when it is a callback post. -/
def postPairSel : Action → Option (List Char × List (List Char × JVal))
  | .post p pay => some (p, pay)
  | _ => none

/-- All callback posts of a trace with their paths, in order. -/
def postedEvents (tr : List Action) :
    List (List Char × List (List Char × JVal)) :=
  tr.filterMap postPairSel

/-- First value stored under a key of a payload. -/
def lookupField (pay : List (List Char × JVal)) (k : List Char) : Option JVal :=
  (pay.find? (fun kv => kv.1 == k)).map Prod.snd

/-- The non-empty stripped texts of a message's text blocks, in order:
exactly the blocks the runner does not skip. -/
def visTexts (blocks : List Block) : List (List Char) :=
  blocks.filterMap fun b =>
    match b with
    | .text s => let t := pstrip s; if t.isEmpty then none else some t
    | .other => none


/-- Recognizer for commit commands. -/
def isCommitCmd : GitCmd → Bool
  | .commit _ _ => true
  | _ => false

/-- Expected trace of a sequence of already-classified step dispatches
starting at cursor `i`: one step post and one publish per text, the cursor
advancing by one each time. -/
def stepsFrom (cfg : Config) (ora : Oracle) (plan : List (List Char)) (total : Nat) :
    Nat → List (List Char) → List Action
  | _, [] => []
  | i, t :: ts =>
    (Action.post "/v1.0/log/step".toList
        (stepPayload cfg i total false (classify t i plan))
      :: commitAndPush cfg ora i (classify t i plan))
    ++ stepsFrom cfg ora plan total (i + 1) ts

/-- Expected `step` payloads of `stepsFrom`. -/
def stepPays (cfg : Config) (plan : List (List Char)) (total : Nat) :
    Nat → List (List Char) → List (List (List Char × JVal))
  | _, [] => []
  | i, t :: ts =>
    stepPayload cfg i total false (classify t i plan) :: stepPays cfg plan total (i + 1) ts

/-- All non-skipped block texts of a message sequence, in order. -/
def allVis (bs : List (List Block)) : List (List Char) :=
  (bs.map visTexts).flatten

/-! ## Concrete jobs used to instantiate the theorems -/

/-- A job with a GitHub remote, a push credential and no deploy credential. -/
def sampleCfg : Config :=
  ⟨"j1".toList, "todo list app".toList, "main".toList,
   some "https://github.com/acme/todo".toList, some "tok".toList, none, [], 50, 50⟩

/-- External world in which every call succeeds and no body is returned. -/
def sampleOra : Oracle :=
  ⟨true, [], [], fun _ => true, fun _ => true, fun _ => true,
   fun _ => [], fun _ => [], fun _ => none, none⟩

/-- External world in which every `git push` fails (remote unreachable). -/
def pushFailOra : Oracle :=
  ⟨true, [], [], fun _ => true, fun _ => true, fun _ => false,
   fun _ => [], fun _ => [], fun _ => none, none⟩

/-- A short agent stream: a plan, one explicit step header, one plain
message, then the terminal result. -/
def sampleMsgs : List Msg :=
  [Msg.assistant [Block.text "1. Scaffold\n2. Add API\n3. Build UI".toList],
   Msg.assistant [Block.text "[STEP 1/3] Scaffold".toList],
   Msg.assistant [Block.text "working".toList],
   Msg.result]

/-- A job with no remote configured at all. -/
def noRemoteCfg : Config :=
  ⟨"j3".toList, "idea".toList, "main".toList, none, none, none, [], 50, 50⟩

/-- A job with a GitHub remote and a deploy credential. -/
def ghCfg : Config :=
  ⟨"j4".toList, "idea".toList, "main".toList,
   some "https://github.com/acme/app".toList, some "tok".toList,
   some "vtok".toList, [], 50, 50⟩

/-- An 80-character summary, longer than the 72-character commit budget. -/
def longSummary : List Char := List.replicate 80 'x'

/-- A two-message agent stream in block form: a one-step plan, then one
explicit step header. -/
def wBs : List (List Block) :=
  [[Block.text "1. A".toList], [Block.text "[STEP 1/1] Doing".toList]]

/-- A job whose repository URL is not on github.com, with a deploy
credential configured. -/
def gitlabCfg : Config :=
  ⟨"j2".toList, "idea".toList, "main".toList,
   some "https://gitlab.com/acme/app".toList, some "tok".toList,
   some "vtok".toList, [], 50, 50⟩

/-! ## Lemmas: character classes, stripping, scanning -/

theorem isDigit_not_isWS {c : Char} (h : c.isDigit = true) : isWS c = false := by
  by_contra hw
  rw [Bool.not_eq_false] at hw
  unfold isWS at hw
  simp only [Bool.or_eq_true, beq_iff_eq] at hw
  rcases hw with ((((rfl | rfl) | rfl) | rfl) | rfl) | rfl <;> exact absurd h (by decide)

theorem isHyphen_not_isWS {c : Char} (h : isHyphen c = true) : isWS c = false := by
  unfold isHyphen at h
  simp only [Bool.or_eq_true, beq_iff_eq] at h
  rcases h with rfl | rfl <;> decide

theorem dropWhile_all {p : Char → Bool} {l : List Char} (h : ∀ c ∈ l, p c = true) :
    l.dropWhile p = [] :=
  List.dropWhile_eq_nil_iff.2 h

theorem dropWhile_append_all {p : Char → Bool} {w l : List Char}
    (h : ∀ c ∈ w, p c = true) : (w ++ l).dropWhile p = l.dropWhile p := by
  rw [List.dropWhile_append, dropWhile_all h]
  simp

theorem dropWhile_cons_not {p : Char → Bool} {c : Char} {l : List Char}
    (h : p c = false) : (c :: l).dropWhile p = c :: l := by
  simp [List.dropWhile_cons, h]

theorem takeWhile_append_all {p : Char → Bool} {w : List Char} (l : List Char)
    (h : ∀ c ∈ w, p c = true) : (w ++ l).takeWhile p = w ++ l.takeWhile p := by
  induction w with
  | nil => simp
  | cons a t ih =>
    have ha : p a = true := h a (List.mem_cons_self a t)
    simp only [List.cons_append, List.takeWhile_cons, ha, if_true]
    rw [ih (fun c hc => h c (List.mem_cons_of_mem a hc))]

theorem dropWhile_append_of_ne_nil {p : Char → Bool} {l l' : List Char}
    (h : l.dropWhile p ≠ []) : (l ++ l').dropWhile p = l.dropWhile p ++ l' := by
  rw [List.dropWhile_append]
  simp only [List.isEmpty_iff]
  rw [if_neg h]

theorem lstrip_cons_not {c : Char} {l : List Char} (h : isWS c = false) :
    lstrip (c :: l) = c :: l :=
  dropWhile_cons_not h

theorem rstrip_append_not {l : List Char} {x : Char} (hx : isWS x = false) :
    rstrip (l ++ [x]) = l ++ [x] := by
  unfold rstrip
  rw [List.reverse_append]
  simp only [List.reverse_cons, List.reverse_nil, List.nil_append, List.singleton_append]
  rw [dropWhile_cons_not hx]
  simp

theorem rstrip_of_last {l : List Char} (h : ∀ x, l.getLast? = some x → isWS x = false)
    (hne : l ≠ []) : rstrip l = l := by
  have hx : isWS (l.getLast hne) = false := h _ (List.getLast?_eq_getLast l hne)
  conv_lhs => rw [← List.dropLast_append_getLast hne]
  rw [rstrip_append_not hx, List.dropLast_append_getLast hne]

theorem pstrip_of_ends {l : List Char} (hne : l ≠ [])
    (hh : ∀ x, l.head? = some x → isWS x = false)
    (hl : ∀ x, l.getLast? = some x → isWS x = false) : pstrip l = l := by
  unfold pstrip
  cases l with
  | nil => exact absurd rfl hne
  | cons c t =>
    rw [lstrip_cons_not (hh c rfl)]
    exact rstrip_of_last hl hne

/-! ## Lemmas: the plan-line regex -/

theorem descSep_cons_hyphen {h : Char} {b : List Char} (hh : isHyphen h = true)
    (hb : b ≠ []) : descSep (h :: b) = true := by
  unfold descSep
  rw [dropWhile_cons_not (isHyphen_not_isWS hh)]
  simp only [hh, Bool.true_and, Bool.not_eq_true', List.isEmpty_iff]
  simpa using hb

theorem descSep_append_false {a mid : List Char}
    (hhyp : ∀ c ∈ a, isHyphen c = false)
    (hlast : ∀ x, a.getLast? = some x → isWS x = false) (hne : a ≠ []) :
    descSep (a ++ mid) = false := by
  have hxl : isWS (a.getLast hne) = false := hlast _ (List.getLast?_eq_getLast a hne)
  have hu : a.dropWhile isWS ≠ [] := by
    intro he
    have := List.dropWhile_eq_nil_iff.1 he _ (List.getLast_mem hne)
    rw [this] at hxl
    exact absurd hxl (by simp)
  unfold descSep
  rw [dropWhile_append_of_ne_nil hu]
  cases hd : a.dropWhile isWS with
  | nil => exact absurd hd hu
  | cons u0 u =>
    have hmem : u0 ∈ a := by
      have : u0 ∈ a.dropWhile isWS := by rw [hd]; exact List.mem_cons_self u0 u
      exact (List.dropWhile_suffix isWS).sublist.mem this
    simp [hhyp u0 hmem]

theorem takeLabel_append_sep {a mid : List Char} (hne : a ≠ [])
    (hhyp : ∀ c ∈ a, isHyphen c = false)
    (hlast : ∀ x, a.getLast? = some x → isWS x = false)
    (hmid : descSep mid = true) :
    takeLabel (a ++ mid) = a := by
  induction a with
  | nil => exact absurd rfl hne
  | cons c t ih =>
    cases t with
    | nil => simp [takeLabel, hmid]
    | cons c2 t2 =>
      have ht : (c2 :: t2 : List Char) ≠ [] := by simp
      have hlast' : ∀ x, (c2 :: t2 : List Char).getLast? = some x → isWS x = false := by
        intro x hx
        refine hlast x ?_
        rw [List.getLast?_eq_getLast _ ht] at hx
        rw [List.getLast?_eq_getLast _ (by simp), List.getLast_cons ht]
        exact hx
      have hhyp' : ∀ c ∈ (c2 :: t2 : List Char), isHyphen c = false :=
        fun x hx => hhyp x (List.mem_cons_of_mem c hx)
      have hds : descSep ((c2 :: t2) ++ mid) = false :=
        descSep_append_false hhyp' hlast' ht
      show takeLabel (c :: ((c2 :: t2) ++ mid)) = _
      unfold takeLabel
      rw [hds]
      simp only [if_false, Bool.false_eq_true]
      rw [ih ht hhyp' hlast']

theorem takeLabel_no_hyphen {t : List Char} (h : ∀ c ∈ t, isHyphen c = false) :
    takeLabel t = t := by
  induction t with
  | nil => rfl
  | cons c r ih =>
    have hds : descSep r = false := by
      unfold descSep
      cases hd : r.dropWhile isWS with
      | nil => rfl
      | cons u0 u =>
        have hmem : u0 ∈ r := by
          have : u0 ∈ r.dropWhile isWS := by rw [hd]; exact List.mem_cons_self u0 u
          exact (List.dropWhile_suffix isWS).sublist.mem this
        simp [h u0 (List.mem_cons_of_mem c hmem)]
    unfold takeLabel
    rw [hds]
    simp only [if_false, Bool.false_eq_true]
    rw [ih (fun x hx => h x (List.mem_cons_of_mem c hx))]

theorem matchPlanLine_digits {d s : List Char} (hd : d ≠ [])
    (hdig : ∀ c ∈ d, c.isDigit = true) :
    matchPlanLine (d ++ '.' :: s) =
      (if (s.dropWhile isWS).isEmpty then (if s.isEmpty then none else some [])
       else some (pstrip (takeLabel (s.dropWhile isWS)))) := by
  have h1 : (d ++ '.' :: s).takeWhile Char.isDigit = d := by
    rw [takeWhile_append_all _ hdig, List.takeWhile_cons]
    simp
  unfold matchPlanLine
  simp only [h1]
  rw [if_neg (by simpa [List.isEmpty_iff] using hd)]
  rw [List.drop_left]
  rfl

theorem matchPlanLine_label_sep {d w a mid : List Char} (hd : d ≠ [])
    (hdig : ∀ c ∈ d, c.isDigit = true) (hw : ∀ c ∈ w, isWS c = true)
    (hne : a ≠ []) (hhyp : ∀ c ∈ a, isHyphen c = false)
    (hhead : ∀ x, a.head? = some x → isWS x = false)
    (hlast : ∀ x, a.getLast? = some x → isWS x = false)
    (hmid : descSep mid = true) :
    matchPlanLine (d ++ '.' :: (w ++ (a ++ mid))) = some a := by
  rw [matchPlanLine_digits hd hdig]
  obtain ⟨c, t, rfl⟩ : ∃ c t, a = c :: t := by
    cases a with
    | nil => exact absurd rfl hne
    | cons c t => exact ⟨c, t, rfl⟩
  have hdrop : (w ++ (c :: t ++ mid)).dropWhile isWS = c :: t ++ mid := by
    rw [dropWhile_append_all hw, List.cons_append, dropWhile_cons_not (hhead c rfl)]
  rw [hdrop]
  simp only [List.isEmpty_iff, List.cons_append]
  rw [if_neg (by simp)]
  rw [show ((c :: t) ++ mid : List Char) = c :: (t ++ mid) from rfl] at *
  rw [show (c :: (t ++ mid) : List Char) = (c :: t) ++ mid from rfl,
    takeLabel_append_sep hne hhyp hlast hmid,
    pstrip_of_ends hne hhead hlast]

theorem matchPlanLine_label_nosep {d w a : List Char} (hd : d ≠ [])
    (hdig : ∀ c ∈ d, c.isDigit = true) (hw : ∀ c ∈ w, isWS c = true)
    (hne : a ≠ []) (hhyp : ∀ c ∈ a, isHyphen c = false)
    (hhead : ∀ x, a.head? = some x → isWS x = false) :
    matchPlanLine (d ++ '.' :: (w ++ a)) = some (pstrip a) := by
  rw [matchPlanLine_digits hd hdig]
  obtain ⟨c, t, rfl⟩ : ∃ c t, a = c :: t := by
    cases a with
    | nil => exact absurd rfl hne
    | cons c t => exact ⟨c, t, rfl⟩
  have hdrop : (w ++ c :: t).dropWhile isWS = c :: t := by
    rw [dropWhile_append_all hw, dropWhile_cons_not (hhead c rfl)]
  rw [hdrop]
  rw [if_neg (by simp)]
  rw [takeLabel_no_hyphen hhyp]


theorem rstrip_prefix (l : List Char) : rstrip l <+: l := by
  rw [← List.reverse_suffix]
  unfold rstrip
  rw [List.reverse_reverse]
  exact List.dropWhile_suffix isWS

theorem dropWhile_eq_cons_head_false {p : Char → Bool} :
    ∀ {l : List Char} {c : Char} {t : List Char}, l.dropWhile p = c :: t → p c = false := by
  intro l
  induction l with
  | nil => intro c t h; simp at h
  | cons a r ih =>
    intro c t h
    rw [List.dropWhile_cons] at h
    by_cases hp : p a = true
    · rw [if_pos hp] at h
      exact ih h
    · rw [if_neg hp] at h
      injection h with h1 h2
      subst h1
      simpa using hp

theorem dropWhile_idem {p : Char → Bool} {l : List Char} :
    (l.dropWhile p).dropWhile p = l.dropWhile p := by
  cases h : l.dropWhile p with
  | nil => rfl
  | cons c t => exact dropWhile_cons_not (dropWhile_eq_cons_head_false h)

theorem pstrip_idem (s : List Char) : pstrip (pstrip s) = pstrip s := by
  unfold pstrip
  have hB : lstrip (rstrip (lstrip s)) = rstrip (lstrip s) := by
    cases h : rstrip (lstrip s) with
    | nil => rfl
    | cons c y =>
      obtain ⟨t, ht⟩ := rstrip_prefix (lstrip s)
      rw [h] at ht
      have hls : lstrip s = c :: (y ++ t) := by rw [← ht]; simp
      have hcw : isWS c = false := by
        unfold lstrip at hls
        exact dropWhile_eq_cons_head_false hls
      exact lstrip_cons_not hcw
  rw [hB]
  unfold rstrip
  rw [List.reverse_reverse, dropWhile_idem]

/-! ## Lemmas: the step-header regex -/

theorem matchStepHeader_eq {c1 c2 c3 c4 : Char} {w d1 d2 label : List Char}
    (h1 : c1.toLower = 's') (h2 : c2.toLower = 't')
    (h3 : c3.toLower = 'e') (h4 : c4.toLower = 'p')
    (hw : w ≠ []) (hws : ∀ c ∈ w, isWS c = true)
    (hd1 : d1 ≠ []) (hdig1 : ∀ c ∈ d1, c.isDigit = true)
    (hd2 : d2 ≠ []) (hdig2 : ∀ c ∈ d2, c.isDigit = true)
    (hlab : label.dropWhile isWS ≠ []) :
    matchStepHeader ('[' :: c1 :: c2 :: c3 :: c4 ::
        (w ++ (d1 ++ '/' :: (d2 ++ ']' :: label))))
      = some (pstrip ((label.dropWhile isWS).takeWhile (fun c => c ≠ '\n'))) := by
  obtain ⟨e1, t1, rfl⟩ : ∃ e t, d1 = e :: t := by
    cases d1 with
    | nil => exact absurd rfl hd1
    | cons e t => exact ⟨e, t, rfl⟩
  obtain ⟨e2, t2, rfl⟩ : ∃ e t, d2 = e :: t := by
    cases d2 with
    | nil => exact absurd rfl hd2
    | cons e t => exact ⟨e, t, rfl⟩
  have hne1 : isWS e1 = false := isDigit_not_isWS (hdig1 e1 (List.mem_cons_self e1 t1))
  have htw : (w ++ (e1 :: t1 ++ '/' :: (e2 :: t2 ++ ']' :: label))).takeWhile isWS = w := by
    rw [takeWhile_append_all _ hws, List.cons_append, List.takeWhile_cons]
    simp [hne1]
  have hdw : (w ++ (e1 :: t1 ++ '/' :: (e2 :: t2 ++ ']' :: label))).dropWhile isWS
      = e1 :: t1 ++ '/' :: (e2 :: t2 ++ ']' :: label) := by
    rw [dropWhile_append_all hws, List.cons_append, dropWhile_cons_not hne1]
  have htd1 : (e1 :: t1 ++ '/' :: (e2 :: t2 ++ ']' :: label)).takeWhile Char.isDigit
      = e1 :: t1 := by
    rw [show (e1 :: t1 ++ '/' :: (e2 :: t2 ++ ']' :: label) : List Char)
        = (e1 :: t1) ++ '/' :: (e2 :: t2 ++ ']' :: label) from rfl]
    rw [takeWhile_append_all _ hdig1, List.takeWhile_cons]
    simp
  have hdd1 : (e1 :: t1 ++ '/' :: (e2 :: t2 ++ ']' :: label)).drop (e1 :: t1).length
      = '/' :: (e2 :: t2 ++ ']' :: label) := by
    rw [show (e1 :: t1 ++ '/' :: (e2 :: t2 ++ ']' :: label) : List Char)
        = (e1 :: t1) ++ '/' :: (e2 :: t2 ++ ']' :: label) from rfl]
    exact List.drop_left _ _
  have htd2 : (e2 :: t2 ++ ']' :: label).takeWhile Char.isDigit = e2 :: t2 := by
    rw [show (e2 :: t2 ++ ']' :: label : List Char)
        = (e2 :: t2) ++ ']' :: label from rfl]
    rw [takeWhile_append_all _ hdig2, List.takeWhile_cons]
    simp
  have hdd2 : (e2 :: t2 ++ ']' :: label).drop (e2 :: t2).length = ']' :: label := by
    rw [show (e2 :: t2 ++ ']' :: label : List Char)
        = (e2 :: t2) ++ ']' :: label from rfl]
    exact List.drop_left _ _
  simp only [matchStepHeader]
  rw [if_pos (by simp [h1, h2, h3, h4])]
  simp only [htw, hdw, htd1, hdd1, htd2, hdd2]
  rw [if_neg (by simpa [List.isEmpty_iff] using hw)]
  rw [if_neg (by simp [List.isEmpty_iff])]
  rw [if_pos (by simp)]
  rw [if_neg (by simp [List.isEmpty_iff])]
  rw [if_pos (by simp)]
  rw [if_pos (by simpa [List.isEmpty_iff] using hlab)]

/-! ## Lemmas: whitespace membership and line splitting -/

theorem all_ws_of_pstrip_nil {l : List Char} (h : pstrip l = []) :
    ∀ c ∈ l, isWS c = true := by
  unfold pstrip rstrip at h
  have h1 : (lstrip l).reverse.dropWhile isWS = [] := by
    have := congrArg List.reverse h
    simpa using this
  have h2 : ∀ c ∈ lstrip l, isWS c = true := by
    intro c hc
    exact List.dropWhile_eq_nil_iff.1 h1 c (List.mem_reverse.2 hc)
  intro c hc
  rcases List.mem_append.1 (by
      rw [List.takeWhile_append_dropWhile isWS l] ; exact hc :
      c ∈ l.takeWhile isWS ++ l.dropWhile isWS) with hc1 | hc2
  · exact List.mem_takeWhile_imp hc1
  · exact h2 c hc2

theorem exists_nonws_of_pstrip_ne_nil {l : List Char} (h : pstrip l ≠ []) :
    ∃ c ∈ pstrip l, isWS c = false := by
  have hu : (lstrip l).reverse.dropWhile isWS ≠ [] := by
    intro he
    apply h
    unfold pstrip rstrip
    rw [he, List.reverse_nil]
  refine ⟨((lstrip l).reverse.dropWhile isWS).head hu, ?_, ?_⟩
  · unfold pstrip rstrip
    rw [List.mem_reverse]
    exact List.head_mem hu
  · exact List.head_dropWhile_not isWS _ hu

theorem splitNL_ne_nil (t : List Char) : splitNL t ≠ [] := by
  cases t with
  | nil => simp [splitNL]
  | cons a r =>
    unfold splitNL
    cases h : splitNL r with
    | nil => simp
    | cons hd tl =>
      dsimp only
      split <;> simp

theorem mem_splitNL {t : List Char} {c : Char} (hc : c ∈ t) (hnl : c ≠ '\n') :
    ∃ piece ∈ splitNL t, c ∈ piece := by
  induction t with
  | nil => simp at hc
  | cons a r ih =>
    cases hsp : splitNL r with
    | nil => exact absurd hsp (splitNL_ne_nil r)
    | cons hd tl =>
      unfold splitNL
      rw [hsp]
      dsimp only
      rcases List.mem_cons.1 hc with rfl | hr
      · rw [if_neg (by simpa using hnl)]
        exact ⟨c :: hd, List.mem_cons_self _ _, List.mem_cons_self _ _⟩
      · rcases ih hr with ⟨piece, hp, hcp⟩
        rw [hsp] at hp
        by_cases hb : (a == '\n') = true
        · rw [if_pos hb]
          exact ⟨piece, List.mem_cons_of_mem _ hp, hcp⟩
        · rw [if_neg hb]
          rcases List.mem_cons.1 hp with rfl | hp2
          · exact ⟨a :: piece, List.mem_cons_self _ _, List.mem_cons_of_mem _ hcp⟩
          · exact ⟨piece, List.mem_cons_of_mem _ hp2, hcp⟩

theorem nonemptyLines_ne_nil {t : List Char} (h : pstrip t ≠ []) (ht : t = pstrip t) :
    nonemptyLines t ≠ [] := by
  obtain ⟨c, hcm, hcw⟩ := exists_nonws_of_pstrip_ne_nil h
  rw [← ht] at hcm
  have hnl : c ≠ '\n' := by
    intro he
    subst he
    exact absurd hcw (by decide)
  obtain ⟨piece, hpm, hcp⟩ := mem_splitNL hcm hnl
  intro hnil
  have hmem : pstrip piece ∈ (splitNL t).map pstrip := List.mem_map_of_mem pstrip hpm
  have h0 := List.filter_eq_nil_iff.1 hnil _ hmem
  have hpe : pstrip piece = [] := by
    simpa [List.isEmpty_iff] using h0
  exact absurd (all_ws_of_pstrip_nil hpe c hcp) (by rw [hcw]; exact Bool.false_ne_true)


/-! ## Lemmas: trace observers and the publish pipeline -/

theorem stepEvents_append (t1 t2 : List Action) :
    stepEvents (t1 ++ t2) = stepEvents t1 ++ stepEvents t2 :=
  List.filterMap_append t1 t2 _

theorem pushEvents_append (t1 t2 : List Action) :
    pushEvents (t1 ++ t2) = pushEvents t1 ++ pushEvents t2 :=
  List.filterMap_append t1 t2 _

theorem gitCmds_append (t1 t2 : List Action) :
    gitCmds (t1 ++ t2) = gitCmds t1 ++ gitCmds t2 :=
  List.filterMap_append t1 t2 _

theorem deployReqs_append (t1 t2 : List Action) :
    deployReqs (t1 ++ t2) = deployReqs t1 ++ deployReqs t2 :=
  List.filterMap_append t1 t2 _

theorem trigger_events (cfg : Config) (ora : Oracle) (i : Nat) :
    stepEvents (triggerVercelDeploy cfg ora i) = [] ∧
    pushEvents (triggerVercelDeploy cfg ora i) = [] ∧
    gitCmds (triggerVercelDeploy cfg ora i) = [] := by
  unfold triggerVercelDeploy
  rcases cfg.vercelToken with _ | tok
  · exact ⟨rfl, rfl, rfl⟩
  · rcases cfg.repoUrl with _ | url
    · exact ⟨rfl, rfl, rfl⟩
    · dsimp only
      by_cases he : (tok.isEmpty || url.isEmpty) = true
      · rw [if_pos he]
        exact ⟨rfl, rfl, rfl⟩
      · rw [if_neg he]
        cases hp : parseGithubUrl url with
        | none => exact ⟨rfl, rfl, rfl⟩
        | some pr =>
          obtain ⟨org, nm⟩ := pr
          dsimp only
          cases hd : ora.deployResp i with
          | none => exact ⟨rfl, rfl, rfl⟩
          | some body => exact ⟨rfl, rfl, rfl⟩

theorem commitAndPush_stepEvents (cfg : Config) (ora : Oracle) (i : Nat) (s : List Char) :
    stepEvents (commitAndPush cfg ora i s) = [] := by
  unfold commitAndPush
  split_ifs
  · rfl
  · rfl
  · rfl
  · rfl
  · rw [stepEvents_append, (trigger_events cfg ora i).1, List.append_nil]
    rfl

theorem commitAndPush_pushEvents (cfg : Config) (ora : Oracle) (i : Nat) (s : List Char) :
    pushEvents (commitAndPush cfg ora i s) = [] ∨
    pushEvents (commitAndPush cfg ora i s) = [pushPayload cfg i s] := by
  unfold commitAndPush
  split_ifs
  · exact Or.inl rfl
  · exact Or.inl rfl
  · exact Or.inl rfl
  · exact Or.inl rfl
  · refine Or.inr ?_
    rw [pushEvents_append, (trigger_events cfg ora i).2.1, List.append_nil]
    rfl

theorem pushUrlOf_none (cfg : Config) (ora : Oracle)
    (h : truthy cfg.repoUrl = false ∨ truthy cfg.githubToken = false ∨ ora.initOk = false) :
    pushUrlOf cfg ora = none := by
  unfold pushUrlOf
  rcases hcr : cfg.repoUrl with _ | u
  · rfl
  · rcases hct : cfg.githubToken with _ | t
    · rfl
    · rw [hcr, hct] at h
      rcases h with h | h | h
      · simp only [truthy] at h
        simp [h]
      · simp only [truthy] at h
        simp [h]
      · simp [h]

theorem parseGithubUrl_plain {org nm : List Char} (ho : org ≠ [])
    (ho2 : ∀ c ∈ org, c ≠ '/') (hn : nm ≠ []) (hn2 : ∀ c ∈ nm, c ≠ '/')
    (hng : ".git".toList.isSuffixOf nm = false) :
    parseGithubUrl ("https://github.com/".toList ++ (org ++ '/' :: nm)) = some (org, nm) := by
  simp only [parseGithubUrl]
  rw [if_pos (List.isPrefixOf_iff_prefix.2 (List.prefix_append _ _))]
  rw [List.drop_left]
  have htw : (org ++ '/' :: nm).takeWhile (fun c => c ≠ '/') = org := by
    rw [takeWhile_append_all _ (fun c hc => decide_eq_true (ho2 c hc)), List.takeWhile_cons]
    simp
  rw [htw]
  rw [if_neg (by simpa [List.isEmpty_iff] using ho)]
  rw [List.drop_left]
  dsimp only
  rw [if_neg (by simp)]
  rw [if_neg ?side1]
  case side1 =>
    simp only [Bool.or_eq_true, List.isEmpty_iff, List.any_eq_true, not_or]
    refine ⟨hn, ?_⟩
    rintro ⟨c, hc, hceq⟩
    exact hn2 c hc (by simpa using hceq)
  rw [if_neg (fun hcon => by
    rw [Bool.and_eq_true] at hcon
    rw [hng] at hcon
    exact Bool.false_ne_true hcon.1)]

theorem parseGithubUrl_dotgit {org nm : List Char} (ho : org ≠ [])
    (ho2 : ∀ c ∈ org, c ≠ '/') (hn : nm ≠ []) (hn2 : ∀ c ∈ nm, c ≠ '/') :
    parseGithubUrl ("https://github.com/".toList ++ (org ++ '/' :: (nm ++ ".git".toList)))
      = some (org, nm) := by
  simp only [parseGithubUrl]
  rw [if_pos (List.isPrefixOf_iff_prefix.2 (List.prefix_append _ _))]
  rw [List.drop_left]
  have htw : (org ++ '/' :: (nm ++ ".git".toList)).takeWhile (fun c => c ≠ '/') = org := by
    rw [takeWhile_append_all _ (fun c hc => decide_eq_true (ho2 c hc)), List.takeWhile_cons]
    simp
  rw [htw]
  rw [if_neg (by simpa [List.isEmpty_iff] using ho)]
  rw [List.drop_left]
  dsimp only
  rw [if_neg (by simp)]
  rw [if_neg ?side1]
  case side1 =>
    simp only [Bool.or_eq_true, List.isEmpty_iff, List.any_eq_true, not_or]
    constructor
    · simp [hn]
    · rintro ⟨c, hc, hceq⟩
      rcases List.mem_append.1 hc with hc1 | hc2
      · exact hn2 c hc1 (by simpa using hceq)
      · have : c = '/' := by simpa using hceq
        subst this
        revert hc2
        decide
  rw [if_pos ?side2]
  case side2 =>
    rw [Bool.and_eq_true]
    refine ⟨List.isSuffixOf_iff_suffix.2 (List.suffix_append _ _), decide_eq_true ?_⟩
    rw [List.length_append]
    have := List.length_pos.2 hn
    simp only [show (".git".toList).length = 4 from rfl]
    omega
  have hlen : (nm ++ ".git".toList).length - 4 = nm.length := by
    rw [List.length_append]
    simp only [show (".git".toList).length = 4 from rfl]
    omega
  rw [hlen]
  rw [List.take_left]

/-! ## Lemmas: the message-stream driver -/

theorem visTexts_cons_other (bs : List Block) :
    visTexts (Block.other :: bs) = visTexts bs := rfl

theorem visTexts_cons_text_empty {s : List Char} (bs : List Block)
    (hs : (pstrip s).isEmpty = true) :
    visTexts (Block.text s :: bs) = visTexts bs := by
  have hs2 : pstrip s = [] := by simpa [List.isEmpty_iff] using hs
  simp [visTexts, List.filterMap_cons, hs, hs2]

theorem visTexts_cons_text_vis {s : List Char} (bs : List Block)
    (hs : (pstrip s).isEmpty = false) :
    visTexts (Block.text s :: bs) = pstrip s :: visTexts bs := by
  have hs2 : ¬ pstrip s = [] := by simpa [List.isEmpty_iff] using hs
  simp [visTexts, List.filterMap_cons, hs, hs2]

theorem stepsFrom_append (cfg : Config) (ora : Oracle) (plan : List (List Char))
    (total : Nat) (vs1 : List (List Char)) :
    ∀ (i : Nat) (vs2 : List (List Char)),
    stepsFrom cfg ora plan total i (vs1 ++ vs2) =
      stepsFrom cfg ora plan total i vs1
        ++ stepsFrom cfg ora plan total (i + vs1.length) vs2 := by
  induction vs1 with
  | nil => intro i vs2; simp [stepsFrom]
  | cons t ts ih =>
    intro i vs2
    simp only [List.cons_append, stepsFrom, List.append_eq]
    rw [ih (i + 1)]
    have h1 : i + 1 + ts.length = i + (ts.length + 1) := by omega
    rw [h1]
    simp [List.append_assoc, List.length_cons]

theorem processBlocks_started (cfg : Config) (ora : Oracle) (blocks : List Block) :
    ∀ st : RunState, st.startedSent = true →
    processBlocks cfg ora st blocks =
      ({ st with stepIndex := st.stepIndex + (visTexts blocks).length },
       stepsFrom cfg ora st.planSteps st.totalSteps st.stepIndex (visTexts blocks)) := by
  induction blocks with
  | nil =>
    intro st hst
    simp [processBlocks, visTexts, stepsFrom]
  | cons b bs ih =>
    intro st hst
    cases b with
    | other =>
      simp only [processBlocks, processBlock]
      rw [ih st hst, visTexts_cons_other]
      simp
    | text s =>
      by_cases hvis : (pstrip s).isEmpty = true
      · simp only [processBlocks, processBlock, hvis, if_true]
        rw [ih st hst, visTexts_cons_text_empty bs hvis]
        simp
      · rw [visTexts_cons_text_vis bs (by simpa using hvis)] at *
        simp only [processBlocks, processBlock, hvis, if_false, Bool.false_eq_true]
        simp only [processText, hst, Bool.not_true, Bool.false_eq_true, if_false]
        rw [ih _ (by rfl)]
        simp only [stepsFrom, sendStep]
        have hlen : st.stepIndex + 1 + (visTexts bs).length
            = st.stepIndex + (pstrip s :: visTexts bs).length := by
          simp only [List.length_cons]
          omega
        rw [hlen]

theorem processBlocks_invisible (cfg : Config) (ora : Oracle) (blocks : List Block) :
    ∀ st : RunState, visTexts blocks = [] → processBlocks cfg ora st blocks = (st, []) := by
  induction blocks with
  | nil => intro st _; rfl
  | cons b bs ih =>
    intro st hv
    cases b with
    | other =>
      rw [visTexts_cons_other] at hv
      simp only [processBlocks, processBlock]
      rw [ih st hv]
      simp
    | text s =>
      by_cases hvis : (pstrip s).isEmpty = true
      · rw [visTexts_cons_text_empty bs hvis] at hv
        simp only [processBlocks, processBlock, hvis, if_true]
        rw [ih st hv]
        simp
      · rw [visTexts_cons_text_vis bs (by simpa using hvis)] at hv
        exact absurd hv (by simp)

theorem processBlocks_unstarted (cfg : Config) (ora : Oracle) (blocks : List Block) :
    ∀ (st : RunState) (t0 : List Char) (ts : List (List Char)),
    st.startedSent = false → visTexts blocks = t0 :: ts →
    processBlocks cfg ora st blocks =
      ({ planSteps := extendPlan st.planSteps t0,
         totalSteps := if (extendPlan st.planSteps t0).length == 0 then 6
           else (extendPlan st.planSteps t0).length,
         stepIndex := st.stepIndex + ts.length,
         startedSent := true },
       Action.post "/v1.0/log/start".toList
           (startPayload cfg
             (if (extendPlan st.planSteps t0).length == 0 then 6
               else (extendPlan st.planSteps t0).length)
             (extendPlan st.planSteps t0))
         :: stepsFrom cfg ora (extendPlan st.planSteps t0)
             (if (extendPlan st.planSteps t0).length == 0 then 6
               else (extendPlan st.planSteps t0).length)
             st.stepIndex ts) := by
  induction blocks with
  | nil =>
    intro st t0 ts _ hv
    simp [visTexts] at hv
  | cons b bs ih =>
    intro st t0 ts hst hv
    cases b with
    | other =>
      rw [visTexts_cons_other] at hv
      simp only [processBlocks, processBlock]
      rw [ih st t0 ts hst hv]
      simp
    | text s =>
      by_cases hvis : (pstrip s).isEmpty = true
      · rw [visTexts_cons_text_empty bs hvis] at hv
        simp only [processBlocks, processBlock, hvis, if_true]
        rw [ih st t0 ts hst hv]
        simp
      · rw [visTexts_cons_text_vis bs (by simpa using hvis)] at hv
        injection hv with hv1 hv2
        subst hv1
        simp only [processBlocks, processBlock, hvis, if_false, Bool.false_eq_true]
        simp only [processText, hst, Bool.not_false, if_true]
        rw [processBlocks_started cfg ora bs _ (by rfl)]
        subst hv2
        rfl

theorem runMsgs_append (cfg : Config) (ora : Oracle) (ms1 : List Msg) :
    ∀ (st : RunState) (ms2 : List Msg),
    runMsgs cfg ora st (ms1 ++ ms2) =
      ((runMsgs cfg ora (runMsgs cfg ora st ms1).1 ms2).1,
       (runMsgs cfg ora st ms1).2 ++ (runMsgs cfg ora (runMsgs cfg ora st ms1).1 ms2).2) := by
  induction ms1 with
  | nil => intro st ms2; simp [runMsgs]
  | cons m ms ih =>
    intro st ms2
    simp only [List.cons_append, runMsgs, List.append_eq]
    rw [ih]
    simp [List.append_assoc]

theorem runMsgs_started (cfg : Config) (ora : Oracle) (bs : List (List Block)) :
    ∀ st : RunState, st.startedSent = true →
    runMsgs cfg ora st (bs.map Msg.assistant) =
      ({ st with stepIndex := st.stepIndex + (allVis bs).length },
       stepsFrom cfg ora st.planSteps st.totalSteps st.stepIndex (allVis bs)) := by
  induction bs with
  | nil =>
    intro st hst
    simp [runMsgs, allVis, stepsFrom]
  | cons blocks rest ih =>
    intro st hst
    simp only [List.map_cons, runMsgs, processMsg]
    rw [processBlocks_started cfg ora blocks st hst]
    dsimp only
    rw [ih _ (by simpa using hst)]
    dsimp only
    have hall : allVis (blocks :: rest) = visTexts blocks ++ allVis rest := by
      simp [allVis]
    rw [hall, stepsFrom_append]
    have hlen : st.stepIndex + (visTexts blocks).length + (allVis rest).length
        = st.stepIndex + (visTexts blocks ++ allVis rest).length := by
      rw [List.length_append]
      omega
    rw [hlen]

theorem runMsgs_invisible (cfg : Config) (ora : Oracle) (bs : List (List Block)) :
    ∀ st : RunState, allVis bs = [] →
    runMsgs cfg ora st (bs.map Msg.assistant) = (st, []) := by
  induction bs with
  | nil => intro st _; rfl
  | cons blocks rest ih =>
    intro st hv
    have hall : allVis (blocks :: rest) = visTexts blocks ++ allVis rest := by
      simp [allVis]
    rw [hall] at hv
    rcases List.append_eq_nil.1 hv with ⟨hv1, hv2⟩
    simp only [List.map_cons, runMsgs, processMsg]
    rw [processBlocks_invisible cfg ora blocks st hv1]
    dsimp only
    rw [ih st hv2]
    simp

theorem runMsgs_unstarted (cfg : Config) (ora : Oracle) (bs : List (List Block)) :
    ∀ (st : RunState) (t0 : List Char) (ts : List (List Char)),
    st.startedSent = false → allVis bs = t0 :: ts →
    runMsgs cfg ora st (bs.map Msg.assistant) =
      ({ planSteps := extendPlan st.planSteps t0,
         totalSteps := if (extendPlan st.planSteps t0).length == 0 then 6
           else (extendPlan st.planSteps t0).length,
         stepIndex := st.stepIndex + ts.length,
         startedSent := true },
       Action.post "/v1.0/log/start".toList
           (startPayload cfg
             (if (extendPlan st.planSteps t0).length == 0 then 6
               else (extendPlan st.planSteps t0).length)
             (extendPlan st.planSteps t0))
         :: stepsFrom cfg ora (extendPlan st.planSteps t0)
             (if (extendPlan st.planSteps t0).length == 0 then 6
               else (extendPlan st.planSteps t0).length)
             st.stepIndex ts) := by
  induction bs with
  | nil =>
    intro st t0 ts _ hv
    simp [allVis] at hv
  | cons blocks rest ih =>
    intro st t0 ts hst hv
    have hall : allVis (blocks :: rest) = visTexts blocks ++ allVis rest := by
      simp [allVis]
    rw [hall] at hv
    simp only [List.map_cons, runMsgs, processMsg]
    cases hvb : visTexts blocks with
    | nil =>
      rw [hvb, List.nil_append] at hv
      rw [processBlocks_invisible cfg ora blocks st hvb]
      dsimp only
      rw [ih st t0 ts hst hv]
      simp
    | cons u0 us =>
      rw [hvb, List.cons_append] at hv
      injection hv with hv1 hv2
      subst hv1
      rw [processBlocks_unstarted cfg ora blocks st u0 us hst hvb]
      dsimp only
      rw [runMsgs_started cfg ora rest _ (by rfl)]
      dsimp only
      subst hv2
      rw [stepsFrom_append]
      have hlen : st.stepIndex + us.length + (allVis rest).length
          = st.stepIndex + (us ++ allVis rest).length := by
        rw [List.length_append]
        omega
      rw [hlen]
      simp [List.append_assoc]

/-! ## Lemmas: events of a full run -/

theorem stepEvents_cons_step (pay : List (List Char × JVal)) (tr : List Action) :
    stepEvents (Action.post "/v1.0/log/step".toList pay :: tr) = pay :: stepEvents tr := by
  simp [stepEvents, List.filterMap_cons, postSel]

theorem stepEvents_cons_post_ne (p : List Char) (pay : List (List Char × JVal))
    (tr : List Action) (h : ¬ p = "/v1.0/log/step".toList) :
    stepEvents (Action.post p pay :: tr) = stepEvents tr := by
  simp only [stepEvents, List.filterMap_cons, postSel]
  rw [if_neg h]

theorem pushEvents_cons_push (pay : List (List Char × JVal)) (tr : List Action) :
    pushEvents (Action.post "/v1.0/log/push".toList pay :: tr) = pay :: pushEvents tr := by
  simp [pushEvents, List.filterMap_cons, postSel]

theorem pushEvents_cons_post_ne (p : List Char) (pay : List (List Char × JVal))
    (tr : List Action) (h : ¬ p = "/v1.0/log/push".toList) :
    pushEvents (Action.post p pay :: tr) = pushEvents tr := by
  simp only [pushEvents, List.filterMap_cons, postSel]
  rw [if_neg h]

theorem stepEvents_cons_git (c : GitCmd) (tr : List Action) :
    stepEvents (Action.git c :: tr) = stepEvents tr := by
  simp [stepEvents, List.filterMap_cons, postSel]

theorem stepEvents_cons_log (m : List Char) (tr : List Action) :
    stepEvents (Action.log m :: tr) = stepEvents tr := by
  simp [stepEvents, List.filterMap_cons, postSel]

theorem pushEvents_cons_git (c : GitCmd) (tr : List Action) :
    pushEvents (Action.git c :: tr) = pushEvents tr := by
  simp [pushEvents, List.filterMap_cons, postSel]

theorem pushEvents_cons_log (m : List Char) (tr : List Action) :
    pushEvents (Action.log m :: tr) = pushEvents tr := by
  simp [pushEvents, List.filterMap_cons, postSel]

theorem stepEvents_nil : stepEvents [] = [] := rfl

theorem pushEvents_nil : pushEvents [] = [] := rfl

theorem sendStep_stepEvents (cfg : Config) (ora : Oracle) (st : RunState)
    (summary : List Char) (done : Bool) :
    stepEvents (sendStep cfg ora st summary done)
      = [stepPayload cfg st.stepIndex st.totalSteps done summary] := by
  unfold sendStep
  rw [stepEvents_cons_step, commitAndPush_stepEvents]

theorem sendStep_pushEvents_mem (cfg : Config) (ora : Oracle) (st : RunState)
    (summary : List Char) (done : Bool) :
    ∀ pay ∈ pushEvents (sendStep cfg ora st summary done),
      ∃ j s, pay = pushPayload cfg j s := by
  intro pay h
  unfold sendStep at h
  rw [pushEvents_cons_post_ne _ _ _ (by decide)] at h
  rcases commitAndPush_pushEvents cfg ora st.stepIndex summary with he | he
  · rw [he] at h
    simp at h
  · rw [he] at h
    rw [List.mem_singleton] at h
    exact ⟨st.stepIndex, summary, h⟩

theorem stepEvents_stepsFrom (cfg : Config) (ora : Oracle) (plan : List (List Char))
    (total : Nat) (vs : List (List Char)) :
    ∀ i : Nat, stepEvents (stepsFrom cfg ora plan total i vs) = stepPays cfg plan total i vs := by
  induction vs with
  | nil => intro i; rfl
  | cons t ts ih =>
    intro i
    simp only [stepsFrom, stepPays, List.cons_append]
    rw [stepEvents_cons_step, stepEvents_append, commitAndPush_stepEvents,
      List.nil_append, ih]

theorem pushEvents_stepsFrom_mem (cfg : Config) (ora : Oracle) (plan : List (List Char))
    (total : Nat) (vs : List (List Char)) :
    ∀ (i : Nat), ∀ pay ∈ pushEvents (stepsFrom cfg ora plan total i vs),
      ∃ j s, pay = pushPayload cfg j s := by
  induction vs with
  | nil => intro i pay h; simp [stepsFrom, pushEvents] at h
  | cons t ts ih =>
    intro i pay h
    simp only [stepsFrom, List.cons_append] at h
    rw [pushEvents_cons_post_ne _ _ _ (by decide), pushEvents_append] at h
    rcases List.mem_append.1 h with h1 | h2
    · rcases commitAndPush_pushEvents cfg ora i (classify t i plan) with he | he
      · rw [he] at h1
        simp at h1
      · rw [he] at h1
        rw [List.mem_singleton] at h1
        exact ⟨i, classify t i plan, h1⟩
    · exact ih (i + 1) pay h2

theorem gitInit_stepEvents (cfg : Config) (ora : Oracle) :
    stepEvents (gitInitActions cfg ora) = [] := by
  unfold gitInitActions
  rcases cfg.repoUrl with _ | u
  · rfl
  · rcases cfg.githubToken with _ | t
    · rfl
    · dsimp only
      split
      · rfl
      · rfl

theorem gitInit_pushEvents (cfg : Config) (ora : Oracle) :
    pushEvents (gitInitActions cfg ora) = [] := by
  unfold gitInitActions
  rcases cfg.repoUrl with _ | u
  · rfl
  · rcases cfg.githubToken with _ | t
    · rfl
    · dsimp only
      split
      · rfl
      · rfl

theorem run_stepEvents_nil (cfg : Config) (ora : Oracle) (bs : List (List Block))
    (hv : allVis bs = []) :
    stepEvents (mainTrace cfg ora (bs.map Msg.assistant ++ [Msg.result]))
      = [stepPayload cfg 0 0 true "Build complete".toList] := by
  unfold mainTrace
  rw [runMsgs_append, runMsgs_invisible cfg ora bs initState hv]
  dsimp only
  simp only [runMsgs, processMsg]
  rw [stepEvents_append, stepEvents_append, gitInit_stepEvents, List.nil_append]
  rw [List.nil_append, stepEvents_append]
  rw [stepEvents_cons_post_ne _ _ _ (by decide), stepEvents_nil]
  rw [List.append_nil, sendStep_stepEvents]
  simp [initState]

theorem run_stepEvents_cons (cfg : Config) (ora : Oracle) (bs : List (List Block))
    (t0 : List Char) (ts : List (List Char)) (hv : allVis bs = t0 :: ts) :
    stepEvents (mainTrace cfg ora (bs.map Msg.assistant ++ [Msg.result]))
      = stepPays cfg (planStepsOf t0) (totalStepsOf t0) 0 ts
        ++ [stepPayload cfg ts.length (totalStepsOf t0) true "Build complete".toList] := by
  unfold mainTrace
  rw [runMsgs_append, runMsgs_unstarted cfg ora bs initState t0 ts rfl hv]
  dsimp only
  simp only [runMsgs, processMsg]
  rw [stepEvents_append, stepEvents_append, gitInit_stepEvents, List.nil_append]
  rw [stepEvents_cons_post_ne _ _ _ (by decide), stepEvents_nil]
  rw [List.append_nil]
  rw [stepEvents_append]
  rw [stepEvents_cons_post_ne _ _ _ (by decide)]
  rw [stepEvents_stepsFrom, stepEvents_append, sendStep_stepEvents]
  rw [stepEvents_nil, List.append_nil]
  show stepPays cfg (extendPlan [] t0) _ _ ts ++ [stepPayload cfg (0 + ts.length) _ true _]
    = _
  rw [Nat.zero_add]
  rfl

theorem run_state_nil (cfg : Config) (ora : Oracle) (bs : List (List Block))
    (hv : allVis bs = []) :
    (runMsgs cfg ora initState (bs.map Msg.assistant ++ [Msg.result])).1 = initState := by
  rw [runMsgs_append, runMsgs_invisible cfg ora bs initState hv]
  simp [runMsgs, processMsg]

theorem run_state_cons (cfg : Config) (ora : Oracle) (bs : List (List Block))
    (t0 : List Char) (ts : List (List Char)) (hv : allVis bs = t0 :: ts) :
    (runMsgs cfg ora initState (bs.map Msg.assistant ++ [Msg.result])).1
      = { planSteps := planStepsOf t0, totalSteps := totalStepsOf t0,
          stepIndex := ts.length, startedSent := true } := by
  rw [runMsgs_append, runMsgs_unstarted cfg ora bs initState t0 ts rfl hv]
  dsimp only
  simp only [runMsgs, processMsg]
  show RunState.mk _ _ (0 + ts.length) true = _
  rw [Nat.zero_add]
  rfl

theorem mainTrace_pushEvents_mem (cfg : Config) (ora : Oracle) (bs : List (List Block)) :
    ∀ pay ∈ pushEvents (mainTrace cfg ora (bs.map Msg.assistant ++ [Msg.result])),
      ∃ j s, pay = pushPayload cfg j s := by
  intro pay h
  unfold mainTrace at h
  rw [pushEvents_append, pushEvents_append, gitInit_pushEvents, List.nil_append] at h
  rw [pushEvents_cons_post_ne _ _ _ (by decide), pushEvents_nil, List.append_nil] at h
  cases hv : allVis bs with
  | nil =>
    rw [runMsgs_append, runMsgs_invisible cfg ora bs initState hv] at h
    dsimp only at h
    simp only [runMsgs, processMsg] at h
    rw [List.nil_append] at h
    rw [pushEvents_append] at h
    rw [pushEvents_nil, List.append_nil] at h
    exact sendStep_pushEvents_mem cfg ora initState _ true pay h
  | cons t0 ts =>
    rw [runMsgs_append, runMsgs_unstarted cfg ora bs initState t0 ts rfl hv] at h
    dsimp only at h
    simp only [runMsgs, processMsg] at h
    rw [pushEvents_append] at h
    rcases List.mem_append.1 h with h1 | h2
    · rw [pushEvents_cons_post_ne _ _ _ (by decide)] at h1
      exact pushEvents_stepsFrom_mem cfg ora _ _ ts _ pay h1
    · rw [pushEvents_append] at h2
      rw [pushEvents_nil, List.append_nil] at h2
      exact sendStep_pushEvents_mem cfg ora _ _ true pay h2

theorem postedEvents_nil : postedEvents [] = [] := rfl

theorem postedEvents_append (t1 t2 : List Action) :
    postedEvents (t1 ++ t2) = postedEvents t1 ++ postedEvents t2 :=
  List.filterMap_append t1 t2 _

theorem postedEvents_cons_post (p : List Char) (pay : List (List Char × JVal))
    (tr : List Action) :
    postedEvents (Action.post p pay :: tr) = (p, pay) :: postedEvents tr := rfl

theorem lookup_startPayload_total (cfg : Config) (total : Nat) (plan : List (List Char)) :
    lookupField (startPayload cfg total plan) "totalSteps".toList = some (JVal.i total) := rfl

theorem lookup_donePayload_total (cfg : Config) (ora : Oracle) :
    lookupField (donePayload cfg ora) "totalSteps".toList = none := rfl

theorem trigger_posted_total (cfg : Config) (ora : Oracle) (i : Nat) :
    ∀ pr ∈ postedEvents (triggerVercelDeploy cfg ora i),
      ¬ pr.1 = "/v1.0/log/start".toList ∧
      (¬ pr.1 = "/v1.0/log/step".toList →
        lookupField pr.2 "totalSteps".toList = none) := by
  unfold triggerVercelDeploy
  rcases cfg.vercelToken with _ | tok
  · intro pr hpr
    exact absurd hpr (List.not_mem_nil pr)
  · rcases cfg.repoUrl with _ | url
    · intro pr hpr
      exact absurd hpr (List.not_mem_nil pr)
    · dsimp only
      by_cases he : (tok.isEmpty || url.isEmpty) = true
      · rw [if_pos he]
        intro pr hpr
        exact absurd hpr (List.not_mem_nil pr)
      · rw [if_neg he]
        cases hp : parseGithubUrl url with
        | none =>
          intro pr hpr
          simp [postedEvents, postPairSel] at hpr
        | some pr2 =>
          obtain ⟨org, nm⟩ := pr2
          dsimp only
          cases hd : ora.deployResp i with
          | none =>
            intro pr hpr
            simp [postedEvents, postPairSel] at hpr
          | some body =>
            intro pr hpr
            simp only [postedEvents, List.filterMap_cons, List.filterMap_nil, postPairSel,
              List.mem_singleton] at hpr
            subst hpr
            have hne : ¬ "/v1.0/log/deployment".toList = "/v1.0/log/start".toList := by decide
            exact ⟨hne, fun _ => rfl⟩

theorem commitAndPush_posted_total (cfg : Config) (ora : Oracle) (i : Nat) (s : List Char) :
    ∀ pr ∈ postedEvents (commitAndPush cfg ora i s),
      ¬ pr.1 = "/v1.0/log/start".toList ∧
      (¬ pr.1 = "/v1.0/log/step".toList →
        lookupField pr.2 "totalSteps".toList = none) := by
  unfold commitAndPush
  split_ifs
  · intro pr hpr
    exact absurd hpr (List.not_mem_nil pr)
  · intro pr hpr
    simp only [postedEvents, List.filterMap_cons, List.filterMap_nil, postPairSel,
      pushErrorPost, List.mem_singleton] at hpr
    subst hpr
    have hne : ¬ "/v1.0/log/error".toList = "/v1.0/log/start".toList := by decide
    exact ⟨hne, fun _ => rfl⟩
  · intro pr hpr
    simp only [postedEvents, List.filterMap_cons, List.filterMap_nil, postPairSel,
      pushErrorPost, List.mem_singleton] at hpr
    subst hpr
    have hne : ¬ "/v1.0/log/error".toList = "/v1.0/log/start".toList := by decide
    exact ⟨hne, fun _ => rfl⟩
  · intro pr hpr
    simp only [postedEvents, List.filterMap_cons, List.filterMap_nil, postPairSel,
      pushErrorPost, List.mem_singleton] at hpr
    subst hpr
    have hne : ¬ "/v1.0/log/error".toList = "/v1.0/log/start".toList := by decide
    exact ⟨hne, fun _ => rfl⟩
  · intro pr hpr
    rw [postedEvents_append] at hpr
    rcases List.mem_append.1 hpr with h1 | h2
    · simp only [postedEvents, List.filterMap_cons, List.filterMap_nil, postPairSel,
        pushPost, List.mem_singleton] at h1
      subst h1
      have hne : ¬ "/v1.0/log/push".toList = "/v1.0/log/start".toList := by decide
      exact ⟨hne, fun _ => rfl⟩
    · exact trigger_posted_total cfg ora i pr h2

theorem sendStep_posted_total (cfg : Config) (ora : Oracle) (st : RunState)
    (summary : List Char) (d : Bool) :
    ∀ pr ∈ postedEvents (sendStep cfg ora st summary d),
      ¬ pr.1 = "/v1.0/log/start".toList ∧
      (¬ pr.1 = "/v1.0/log/step".toList →
        lookupField pr.2 "totalSteps".toList = none) := by
  intro pr hpr
  unfold sendStep at hpr
  rw [postedEvents_cons_post] at hpr
  rcases List.mem_cons.1 hpr with h0 | h1
  · subst h0
    have hne : ¬ "/v1.0/log/step".toList = "/v1.0/log/start".toList := by decide
    exact ⟨hne, fun hstep => absurd rfl hstep⟩
  · exact commitAndPush_posted_total cfg ora st.stepIndex summary pr h1

theorem stepsFrom_posted_total (cfg : Config) (ora : Oracle) (plan : List (List Char))
    (total : Nat) (vs : List (List Char)) :
    ∀ (i : Nat), ∀ pr ∈ postedEvents (stepsFrom cfg ora plan total i vs),
      ¬ pr.1 = "/v1.0/log/start".toList ∧
      (¬ pr.1 = "/v1.0/log/step".toList →
        lookupField pr.2 "totalSteps".toList = none) := by
  induction vs with
  | nil =>
    intro i pr hpr
    simp [stepsFrom, postedEvents] at hpr
  | cons t ts ih =>
    intro i pr hpr
    simp only [stepsFrom, List.cons_append] at hpr
    rw [postedEvents_cons_post, postedEvents_append] at hpr
    rcases List.mem_cons.1 hpr with h0 | h1
    · subst h0
      have hne : ¬ "/v1.0/log/step".toList = "/v1.0/log/start".toList := by decide
      exact ⟨hne, fun hstep => absurd rfl hstep⟩
    · rcases List.mem_append.1 h1 with h2 | h3
      · exact commitAndPush_posted_total cfg ora i (classify t i plan) pr h2
      · exact ih (i + 1) pr h3

theorem gitInit_posted_total (cfg : Config) (ora : Oracle) :
    ∀ pr ∈ postedEvents (gitInitActions cfg ora),
      ¬ pr.1 = "/v1.0/log/start".toList ∧
      (¬ pr.1 = "/v1.0/log/step".toList →
        lookupField pr.2 "totalSteps".toList = none) := by
  unfold gitInitActions
  rcases cfg.repoUrl with _ | u
  · intro pr hpr
    exact absurd hpr (List.not_mem_nil pr)
  · rcases cfg.githubToken with _ | t
    · intro pr hpr
      exact absurd hpr (List.not_mem_nil pr)
    · dsimp only
      split
      · intro pr hpr
        simp only [postedEvents, List.filterMap_cons, List.filterMap_nil, postPairSel,
          List.mem_singleton] at hpr
        subst hpr
        have hne : ¬ "/v1.0/log/error".toList = "/v1.0/log/start".toList := by decide
        exact ⟨hne, fun _ => rfl⟩
      · intro pr hpr
        exact absurd hpr (List.not_mem_nil pr)

theorem mainTrace_posted_total (cfg : Config) (ora : Oracle) (bs : List (List Block)) :
    ∀ pr ∈ postedEvents (mainTrace cfg ora (bs.map Msg.assistant ++ [Msg.result])),
      ¬ pr.1 = "/v1.0/log/step".toList → ¬ pr.1 = "/v1.0/log/start".toList →
      lookupField pr.2 "totalSteps".toList = none := by
  intro pr h hstep hstart
  unfold mainTrace at h
  rw [postedEvents_append, postedEvents_append] at h
  rcases List.mem_append.1 h with h1 | h2
  · rcases List.mem_append.1 h1 with h3 | h4
    · exact (gitInit_posted_total cfg ora pr h3).2 hstep
    · cases hv : allVis bs with
      | nil =>
        rw [runMsgs_append, runMsgs_invisible cfg ora bs initState hv] at h4
        dsimp only at h4
        simp only [runMsgs, processMsg] at h4
        rw [List.nil_append] at h4
        rw [postedEvents_append, postedEvents_nil, List.append_nil] at h4
        exact (sendStep_posted_total cfg ora initState _ true pr h4).2 hstep
      | cons t0 ts =>
        rw [runMsgs_append, runMsgs_unstarted cfg ora bs initState t0 ts rfl hv] at h4
        dsimp only at h4
        simp only [runMsgs, processMsg] at h4
        rw [postedEvents_append] at h4
        rcases List.mem_append.1 h4 with h5 | h6
        · rw [postedEvents_cons_post] at h5
          rcases List.mem_cons.1 h5 with h7 | h7
          · subst h7
            exact absurd rfl hstart
          · exact (stepsFrom_posted_total cfg ora _ _ ts _ pr h7).2 hstep
        · rw [postedEvents_append, postedEvents_nil, List.append_nil] at h6
          exact (sendStep_posted_total cfg ora _ _ true pr h6).2 hstep
  · rw [postedEvents_cons_post, postedEvents_nil] at h2
    rcases List.mem_cons.1 h2 with h7 | h7
    · subst h7
      exact lookup_donePayload_total cfg ora
    · exact absurd h7 (List.not_mem_nil pr)

theorem mainTrace_start_total (cfg : Config) (ora : Oracle) (bs : List (List Block))
    (t0 : List Char) (ts : List (List Char)) (hv : allVis bs = t0 :: ts) :
    ∀ pr ∈ postedEvents (mainTrace cfg ora (bs.map Msg.assistant ++ [Msg.result])),
      pr.1 = "/v1.0/log/start".toList →
      lookupField pr.2 "totalSteps".toList = some (JVal.i (totalStepsOf t0)) := by
  intro pr h hp
  unfold mainTrace at h
  rw [postedEvents_append, postedEvents_append] at h
  rcases List.mem_append.1 h with h1 | h2
  · rcases List.mem_append.1 h1 with h3 | h4
    · exact absurd hp (gitInit_posted_total cfg ora pr h3).1
    · rw [runMsgs_append, runMsgs_unstarted cfg ora bs initState t0 ts rfl hv] at h4
      dsimp only at h4
      simp only [runMsgs, processMsg] at h4
      rw [postedEvents_append] at h4
      rcases List.mem_append.1 h4 with h5 | h6
      · rw [postedEvents_cons_post] at h5
        rcases List.mem_cons.1 h5 with h7 | h7
        · subst h7
          exact lookup_startPayload_total cfg _ _
        · exact absurd hp (stepsFrom_posted_total cfg ora _ _ ts _ pr h7).1
      · rw [postedEvents_append, postedEvents_nil, List.append_nil] at h6
        exact absurd hp (sendStep_posted_total cfg ora _ _ true pr h6).1
  · rw [postedEvents_cons_post, postedEvents_nil] at h2
    rcases List.mem_cons.1 h2 with h7 | h7
    · subst h7
      have hne : ¬ "/v1.0/log/done".toList = "/v1.0/log/start".toList := by decide
      exact absurd hp hne
    · exact absurd h7 (List.not_mem_nil pr)

theorem mainTrace_start_mem (cfg : Config) (ora : Oracle) (bs : List (List Block))
    (t0 : List Char) (ts : List (List Char)) (hv : allVis bs = t0 :: ts) :
    ("/v1.0/log/start".toList, startPayload cfg (totalStepsOf t0) (planStepsOf t0))
      ∈ postedEvents (mainTrace cfg ora (bs.map Msg.assistant ++ [Msg.result])) := by
  unfold mainTrace
  rw [postedEvents_append, postedEvents_append]
  rw [runMsgs_append, runMsgs_unstarted cfg ora bs initState t0 ts rfl hv]
  dsimp only
  simp only [runMsgs, processMsg]
  rw [postedEvents_append, postedEvents_cons_post]
  exact List.mem_append.2 (Or.inl (List.mem_append.2 (Or.inr
    (List.mem_append.2 (Or.inl (List.mem_cons_self _ _))))))

theorem lookup_stepPayload_idx (cfg : Config) (i total : Nat) (d : Bool) (s : List Char) :
    lookupField (stepPayload cfg i total d s) "stepIndex".toList = some (JVal.i i) := rfl

theorem lookup_stepPayload_done (cfg : Config) (i total : Nat) (d : Bool) (s : List Char) :
    lookupField (stepPayload cfg i total d s) "done".toList = some (JVal.b d) := rfl

theorem lookup_stepPayload_summary (cfg : Config) (i total : Nat) (d : Bool) (s : List Char) :
    lookupField (stepPayload cfg i total d s) "summary".toList = some (JVal.s s) := rfl

theorem lookup_stepPayload_total (cfg : Config) (i total : Nat) (d : Bool) (s : List Char) :
    lookupField (stepPayload cfg i total d s) "totalSteps".toList = some (JVal.i total) := rfl

theorem lookup_pushPayload_total (cfg : Config) (j : Nat) (s : List Char) :
    lookupField (pushPayload cfg j s) "totalSteps".toList = none := rfl

theorem stepPays_lookup_idx (cfg : Config) (plan : List (List Char)) (total : Nat)
    (vs : List (List Char)) :
    ∀ i : Nat, (stepPays cfg plan total i vs).map (fun p => lookupField p "stepIndex".toList)
      = (List.range' i vs.length).map (fun n : Nat => some (JVal.i (n : Int))) := by
  induction vs with
  | nil => intro i; rfl
  | cons t ts ih =>
    intro i
    simp only [stepPays, List.length_cons, List.range'_succ, List.map_cons]
    rw [lookup_stepPayload_idx, ih]

theorem stepPays_lookup_done (cfg : Config) (plan : List (List Char)) (total : Nat)
    (vs : List (List Char)) :
    ∀ i : Nat, (stepPays cfg plan total i vs).map (fun p => lookupField p "done".toList)
      = List.replicate vs.length (some (JVal.b false)) := by
  induction vs with
  | nil => intro i; rfl
  | cons t ts ih =>
    intro i
    simp only [stepPays, List.length_cons, List.replicate_succ, List.map_cons]
    rw [lookup_stepPayload_done, ih]

theorem stepPays_lookup_total (cfg : Config) (plan : List (List Char)) (total : Nat)
    (vs : List (List Char)) :
    ∀ i : Nat, ∀ pay ∈ stepPays cfg plan total i vs,
      lookupField pay "totalSteps".toList = some (JVal.i total) := by
  induction vs with
  | nil => intro i pay h; simp [stepPays] at h
  | cons t ts ih =>
    intro i pay h
    rcases List.mem_cons.1 h with rfl | h2
    · exact lookup_stepPayload_total cfg i total false (classify t i plan)
    · exact ih (i + 1) pay h2

/-! ## Claims -/

/-- Claim C1.  Plan extraction: when at least one line of the first-message
text matches the numbered-item regex, the plan is exactly the extracted
labels of the matching lines in order of appearance; a numbered line
`<digits>. <label> <sep> <desc>` (separator `-` or `—`, with or without
surrounding whitespace) contributes exactly its label with the separator
and description stripped, and a numbered line without a separator
contributes its stripped label.  When no line matches, the plan is the
first at-most-6 non-empty trimmed lines verbatim, and is non-empty whenever
some non-empty trimmed line exists. -/
theorem C1_plan_extraction (text : List Char) :
    (((nonemptyLines text).filterMap matchPlanLine ≠ [] →
        planStepsOf text = (nonemptyLines text).filterMap matchPlanLine) ∧
     ((nonemptyLines text).filterMap matchPlanLine = [] → nonemptyLines text ≠ [] →
        planStepsOf text = (nonemptyLines text).take 6 ∧ planStepsOf text ≠ []))
    ∧
    (∀ d w a mid : List Char, d ≠ [] → (∀ c ∈ d, c.isDigit = true) →
      (∀ c ∈ w, isWS c = true) → a ≠ [] → (∀ c ∈ a, isHyphen c = false) →
      (∀ x, a.head? = some x → isWS x = false) →
      (∀ x, a.getLast? = some x → isWS x = false) → descSep mid = true →
      matchPlanLine (d ++ '.' :: (w ++ (a ++ mid))) = some a)
    ∧
    (∀ d w a : List Char, d ≠ [] → (∀ c ∈ d, c.isDigit = true) →
      (∀ c ∈ w, isWS c = true) → a ≠ [] → (∀ c ∈ a, isHyphen c = false) →
      (∀ x, a.head? = some x → isWS x = false) →
      matchPlanLine (d ++ '.' :: (w ++ a)) = some (pstrip a)) := by
  refine ⟨⟨?_, ?_⟩, ?_, ?_⟩
  · intro h
    unfold planStepsOf extendPlan
    simp only [List.nil_append]
    rw [if_neg (by simpa [List.isEmpty_iff] using h)]
  · intro h hl
    have he : planStepsOf text = (nonemptyLines text).take 6 := by
      unfold planStepsOf extendPlan
      simp only [List.nil_append, h]
      simp
    refine ⟨he, ?_⟩
    rw [he]
    intro hnil
    rcases List.take_eq_nil_iff.1 hnil with h6 | h0
    · exact absurd h6 (by norm_num)
    · exact hl h0
  · exact fun d w a mid h1 h2 h3 h4 h5 h6 h7 h8 =>
      matchPlanLine_label_sep h1 h2 h3 h4 h5 h6 h7 h8
  · exact fun d w a h1 h2 h3 h4 h5 h6 =>
      matchPlanLine_label_nosep h1 h2 h3 h4 h5 h6

/-- Witness for C1 at concrete inputs: a mixed text with two numbered lines
keeps their labels in line order with descriptions stripped, and the two
quantified label forms evaluate as stated. -/
theorem C1_plan_extraction_witness :
    planStepsOf "intro\n3. Foo - x\n1. Bar\ntrailer".toList = ["Foo".toList, "Bar".toList] ∧
    matchPlanLine (['1'] ++ '.' :: ([' '] ++ ("Foo".toList ++ (' ' :: '-' :: ' ' :: "desc".toList))))
      = some "Foo".toList ∧
    matchPlanLine (['2'] ++ '.' :: ([' '] ++ "Bar".toList)) = some (pstrip "Bar".toList) := by
  refine ⟨?_, ?_, ?_⟩
  · exact ((C1_plan_extraction "intro\n3. Foo - x\n1. Bar\ntrailer".toList).1.1
      (by decide)).trans (by decide)
  · exact (C1_plan_extraction []).2.1 ['1'] [' '] "Foo".toList
      (' ' :: '-' :: ' ' :: "desc".toList) (by decide) (by decide) (by decide)
      (by decide) (by decide) (by decide) (by decide) (by decide)
  · exact (C1_plan_extraction []).2.2 ['2'] [' '] "Bar".toList
      (by decide) (by decide) (by decide) (by decide) (by decide) (by decide)

/-- Claim C2.  Step classification: a message starting with a
`[STEP i/N] Label` header (case-insensitive) is summarized by exactly the
trailing label text for every `i`, `N`, cursor and plan; without a header
the summary is the plan label at the cursor when in bounds, and
`"Implementing step N"` with `N = cursor+1` otherwise. -/
theorem C2_classify (text : List Char) (cursor : Nat) (plan : List (List Char)) :
    (∀ (c1 c2 c3 c4 : Char) (w d1 d2 label : List Char),
      c1.toLower = 's' → c2.toLower = 't' → c3.toLower = 'e' → c4.toLower = 'p' →
      w ≠ [] → (∀ c ∈ w, isWS c = true) →
      d1 ≠ [] → (∀ c ∈ d1, c.isDigit = true) →
      d2 ≠ [] → (∀ c ∈ d2, c.isDigit = true) →
      label.dropWhile isWS ≠ [] →
      classify ('[' :: c1 :: c2 :: c3 :: c4 :: (w ++ (d1 ++ '/' :: (d2 ++ ']' :: label))))
          cursor plan
        = pstrip ((label.dropWhile isWS).takeWhile (fun c => c ≠ '\n'))) ∧
    (matchStepHeader text = none →
      (∀ h : cursor < plan.length, classify text cursor plan = plan.get ⟨cursor, h⟩) ∧
      (plan.length ≤ cursor →
        classify text cursor plan = "Implementing step ".toList ++ natStr (cursor + 1))) := by
  constructor
  · intro c1 c2 c3 c4 w d1 d2 label h1 h2 h3 h4 hw hws hd1 hdig1 hd2 hdig2 hlab
    unfold classify
    rw [matchStepHeader_eq h1 h2 h3 h4 hw hws hd1 hdig1 hd2 hdig2 hlab]
  · intro hnone
    constructor
    · intro h
      unfold classify
      rw [hnone, dif_pos h]
    · intro h
      unfold classify
      rw [hnone, dif_neg (not_lt.2 h)]

/-- Witness for C2 at concrete inputs: an explicit header beats an
out-of-bounds cursor, an in-bounds cursor reads the plan, and an
out-of-bounds cursor synthesizes the numbered summary. -/
theorem C2_classify_witness :
    classify ('[' :: 's' :: 't' :: 'e' :: 'p' ::
        ([' '] ++ (['2'] ++ '/' :: (['9'] ++ ']' :: " Foo".toList)))) 5 [] = "Foo".toList ∧
    classify "working".toList 0 ["Scaffold".toList] = "Scaffold".toList ∧
    classify "working".toList 3 ["Scaffold".toList] = "Implementing step 4".toList := by
  refine ⟨?_, ?_, ?_⟩
  · exact ((C2_classify [] 5 []).1 's' 't' 'e' 'p' [' '] ['2'] ['9'] " Foo".toList
      rfl rfl rfl rfl (by decide) (by decide) (by decide) (by decide) (by decide)
      (by decide) (by decide)).trans (by decide)
  · exact (((C2_classify "working".toList 0 ["Scaffold".toList]).2 (by decide)).1
      (by decide)).trans (by decide)
  · exact (((C2_classify "working".toList 3 ["Scaffold".toList]).2 (by decide)).2
      (by decide)).trans (by decide)

/-- Claim C9.  A numbered line whose label text contains a hyphen or em
dash with more text after it — even with no whitespace around the
separator — keeps only the text before the first such separator, because
the separator pattern allows zero whitespace on either side. -/
theorem C9_hyphen_label (d w a b : List Char) (hc : Char)
    (hd : d ≠ []) (hdig : ∀ c ∈ d, c.isDigit = true)
    (hw : ∀ c ∈ w, isWS c = true)
    (ha : a ≠ []) (hhyp : ∀ c ∈ a, isHyphen c = false)
    (hhead : ∀ x, a.head? = some x → isWS x = false)
    (hlast : ∀ x, a.getLast? = some x → isWS x = false)
    (hh : isHyphen hc = true) (hb : b ≠ []) :
    matchPlanLine (d ++ '.' :: (w ++ (a ++ hc :: b))) = some a :=
  matchPlanLine_label_sep hd hdig hw ha hhyp hhead hlast (descSep_cons_hyphen hh hb)

/-- Witness for C9: the line `"1. Set-up environment"` yields the plan
label `"Set"`. -/
theorem C9_hyphen_label_witness :
    matchPlanLine (['1'] ++ '.' :: ([' '] ++ ("Set".toList ++ '-' :: "up environment".toList)))
      = some "Set".toList ∧
    ['1'] ++ '.' :: ([' '] ++ ("Set".toList ++ '-' :: "up environment".toList))
      = "1. Set-up environment".toList := by
  refine ⟨?_, by decide⟩
  exact C9_hyphen_label ['1'] [' '] "Set".toList "up environment".toList '-'
    (by decide) (by decide) (by decide) (by decide) (by decide) (by decide)
    (by decide) (by decide) (by decide)

/-- Claim C10.  A text block that is empty or whitespace-only is skipped
entirely: the state (plan, totals, cursor, started flag) is unchanged and
no action is emitted; consequently any text that is parsed as the plan
(the stripped text of a non-skipped block) has at least one non-empty
trimmed line. -/
theorem C10_empty_blocks (cfg : Config) (ora : Oracle) (st : RunState) (s : List Char) :
    (pstrip s = [] → processBlock cfg ora st (Block.text s) = (st, [])) ∧
    (pstrip s ≠ [] → nonemptyLines (pstrip s) ≠ []) := by
  constructor
  · intro h
    unfold processBlock
    simp [h]
  · intro h
    exact nonemptyLines_ne_nil (by rwa [pstrip_idem]) (pstrip_idem s).symm

/-- Witness for C10: a whitespace-only block leaves the state and the
trace untouched, and a visible block's stripped text has a non-empty
line. -/
theorem C10_empty_blocks_witness :
    processBlock sampleCfg sampleOra initState (Block.text "  \n\t ".toList)
      = (initState, []) ∧
    nonemptyLines (pstrip " hi \n ".toList) ≠ [] := by
  constructor
  · exact (C10_empty_blocks sampleCfg sampleOra initState "  \n\t ".toList).1 (by decide)
  · exact (C10_empty_blocks sampleCfg sampleOra initState " hi \n ".toList).2 (by decide)

/-- Claim C4.  Publish is a no-op without a remote: when no repository URL
or no push credential is configured, or git initialization failed,
`commit_and_push` performs no git command, no deployment trigger, posts
nothing and logs nothing (its action trace is empty), leaving all state
unchanged. -/
theorem C4_publish_noop (cfg : Config) (ora : Oracle) (idx : Nat) (summary : List Char)
    (h : truthy cfg.repoUrl = false ∨ truthy cfg.githubToken = false ∨ ora.initOk = false) :
    commitAndPush cfg ora idx summary = [] ∧
    gitCmds (commitAndPush cfg ora idx summary) = [] ∧
    deployReqs (commitAndPush cfg ora idx summary) = [] := by
  have he : commitAndPush cfg ora idx summary = [] := by
    unfold commitAndPush
    rw [pushUrlOf_none cfg ora h]
    rfl
  exact ⟨he, by rw [he]; rfl, by rw [he]; rfl⟩

/-- Witness for C4: a job with no repository URL publishes nothing. -/
theorem C4_publish_noop_witness :
    truthy noRemoteCfg.repoUrl = false ∧
    commitAndPush noRemoteCfg sampleOra 0 "summary".toList = [] :=
  ⟨by decide,
   (C4_publish_noop noRemoteCfg sampleOra 0 "summary".toList (Or.inl (by decide))).1⟩

/-- Claim C5.  When publishing proceeds (remote configured, staging
succeeded), exactly one commit command is issued; its message is
`"Step <idx>: "` followed by the first 72 characters of the summary, and it
carries `--allow-empty` so the commit exists even with nothing staged. -/
theorem C5_commit_message (cfg : Config) (ora : Oracle) (idx : Nat) (summary : List Char)
    (hp : (pushUrlOf cfg ora).isSome = true) (ha : ora.addOk idx = true) :
    (gitCmds (commitAndPush cfg ora idx summary)).filter isCommitCmd
      = [GitCmd.commit ("Step ".toList ++ natStr idx ++ ": ".toList ++ summary.take 72)
          true] := by
  have hn : (pushUrlOf cfg ora).isNone = false := by
    rcases hq : pushUrlOf cfg ora with _ | v
    · rw [hq] at hp
      simp at hp
    · rfl
  unfold commitAndPush
  rw [if_neg (by simp [hn])]
  rw [if_neg (by simp [ha])]
  split_ifs
  · rfl
  · rfl
  · rw [gitCmds_append, (trigger_events cfg ora idx).2.2, List.append_nil]
    rfl

/-- Witness for C5: at step 2 with an 80-character summary the single
commit command truncates the message to 72 summary characters and is
allow-empty. -/
theorem C5_commit_message_witness :
    (pushUrlOf sampleCfg sampleOra).isSome = true ∧
    (gitCmds (commitAndPush sampleCfg sampleOra 2 longSummary)).filter isCommitCmd
      = [GitCmd.commit ("Step 2: ".toList ++ List.replicate 72 'x') true] := by
  refine ⟨by decide, ?_⟩
  exact (C5_commit_message sampleCfg sampleOra 2 longSummary (by decide) (by decide)).trans
    (by decide)

/-- Claim C7 (amended).  With a deploy credential configured, a repository
URL of the shape `https://github.com/<org>/<name>[.git]` produces exactly
one deployment-creation request naming that organization and repository on
the configured branch; any URL the pattern rejects is logged and skipped
with no deployment request and no exception. -/
theorem C7_deploy_trigger (cfg : Config) (ora : Oracle) (idx : Nat) :
    (∀ tok url org nm : List Char,
      cfg.vercelToken = some tok → tok ≠ [] → cfg.repoUrl = some url →
      (url = "https://github.com/".toList ++ (org ++ '/' :: nm) ∧
          ".git".toList.isSuffixOf nm = false ∨
        url = "https://github.com/".toList ++ (org ++ '/' :: (nm ++ ".git".toList))) →
      org ≠ [] → (∀ c ∈ org, c ≠ '/') → nm ≠ [] → (∀ c ∈ nm, c ≠ '/') →
      deployReqs (triggerVercelDeploy cfg ora idx)
        = [{ name := nm, target := "production".toList, org := org, repo := nm,
             ref := cfg.branch }]) ∧
    (∀ tok url : List Char, cfg.vercelToken = some tok → tok ≠ [] →
      cfg.repoUrl = some url → url ≠ [] → parseGithubUrl url = none →
      triggerVercelDeploy cfg ora idx
        = [Action.log ("cannot parse repo_url for Vercel: ".toList ++ url)]) := by
  constructor
  · intro tok url org nm htok htne hurl hshape ho ho2 hn hn2
    have hparse : parseGithubUrl url = some (org, nm) := by
      rcases hshape with ⟨rfl, hng⟩ | rfl
      · exact parseGithubUrl_plain ho ho2 hn hn2 hng
      · exact parseGithubUrl_dotgit ho ho2 hn hn2
    have hune : url ≠ [] := by
      rcases hshape with ⟨rfl, _⟩ | rfl <;> simp
    unfold triggerVercelDeploy
    rw [htok, hurl]
    dsimp only
    rw [if_neg (by simp [List.isEmpty_iff, htne, hune])]
    rw [hparse]
    dsimp only
    cases hd : ora.deployResp idx with
    | none => rfl
    | some body => rfl
  · intro tok url htok htne hurl hune hparse
    unfold triggerVercelDeploy
    rw [htok, hurl]
    dsimp only
    rw [if_neg (by simp [List.isEmpty_iff, htne, hune])]
    rw [hparse]

/-- Witness for C7: a github.com URL yields one deployment request for the
configured branch with the parsed organization and repository. -/
theorem C7_deploy_trigger_witness :
    ghCfg.repoUrl = some ("https://github.com/".toList ++ ("acme".toList ++ '/' :: "app".toList)) ∧
    deployReqs (triggerVercelDeploy ghCfg sampleOra 0)
      = [{ name := "app".toList, target := "production".toList, org := "acme".toList,
           repo := "app".toList, ref := ghCfg.branch }] := by
  refine ⟨by decide, ?_⟩
  exact (C7_deploy_trigger ghCfg sampleOra 0).1 "vtok".toList
    ("https://github.com/".toList ++ ("acme".toList ++ '/' :: "app".toList))
    "acme".toList "app".toList rfl (by decide) (by decide)
    (Or.inl ⟨rfl, by decide⟩) (by decide) (by decide) (by decide) (by decide)

/-- Counterexample for C7 as stated: the URL `https://gitlab.com/acme/app`
has the shape `https://<host>/<org>/<name>` with a deploy credential
configured, yet no deployment request is issued — the pattern only accepts
github.com. -/
theorem C7_counterexample :
    gitlabCfg.vercelToken = some "vtok".toList ∧
    gitlabCfg.repoUrl
      = some ("https://".toList ++ ("gitlab.com".toList ++ ('/' :: ("acme".toList ++ '/' :: "app".toList)))) ∧
    deployReqs (triggerVercelDeploy gitlabCfg sampleOra 0) = [] ∧
    triggerVercelDeploy gitlabCfg sampleOra 0
      = [Action.log ("cannot parse repo_url for Vercel: ".toList
          ++ "https://gitlab.com/acme/app".toList)] := by
  exact ⟨rfl, by decide, by decide, by decide⟩

/-- Claim C3.  Cursor monotonicity: over any full run (assistant messages
followed by the terminal result), the step events carry indices
0, 1, 2, … increasing by exactly one per processed non-first non-empty
text block, with no gaps or repeats; all ordinary step events have
`done = false` and the single completion event has `done = true`, summary
`"Build complete"`, at the index one past the last ordinary step. -/
theorem C3_cursor_monotonicity (cfg : Config) (ora : Oracle) (bs : List (List Block)) :
    ((stepEvents (mainTrace cfg ora (bs.map Msg.assistant ++ [Msg.result]))).map
        (fun p => lookupField p "stepIndex".toList)
      = (List.range ((allVis bs).length.pred + 1)).map
          (fun n : Nat => some (JVal.i (n : Int))))
    ∧ ((stepEvents (mainTrace cfg ora (bs.map Msg.assistant ++ [Msg.result]))).map
        (fun p => lookupField p "done".toList)
      = List.replicate (allVis bs).length.pred (some (JVal.b false))
          ++ [some (JVal.b true)])
    ∧ (((stepEvents (mainTrace cfg ora (bs.map Msg.assistant ++ [Msg.result]))).map
        (fun p => lookupField p "summary".toList)).getLast?
      = some (some (JVal.s "Build complete".toList))) := by
  cases hv : allVis bs with
  | nil =>
    rw [run_stepEvents_nil cfg ora bs hv]
    exact ⟨rfl, rfl, rfl⟩
  | cons t0 ts =>
    rw [run_stepEvents_cons cfg ora bs t0 ts hv]
    refine ⟨?_, ?_, ?_⟩
    · rw [List.map_append, stepPays_lookup_idx]
      simp only [List.length_cons, Nat.pred_succ]
      rw [List.range_succ, List.map_append, List.range_eq_range']
      simp only [List.map_cons, List.map_nil]
      rw [lookup_stepPayload_idx]
    · rw [List.map_append, stepPays_lookup_done]
      simp only [List.length_cons, Nat.pred_succ, List.map_cons, List.map_nil]
      rw [lookup_stepPayload_done]
    · rw [List.map_append]
      simp only [List.map_cons, List.map_nil]
      rw [List.getLast?_concat, lookup_stepPayload_summary]

/-- Claim C8 (amended).  `total_steps` is fixed once at plan-parse time
(the number of extracted labels, or 6 when that is zero); it is carried
in the payload of the `start` event and of every `step` event; the `push`
events do not carry it, and neither does any other callback event: every
posted payload whose path is neither the step path nor the start path
(push, error, deployment, done) has no `totalSteps` field. -/
theorem C8_total_steps (cfg : Config) (ora : Oracle) (bs : List (List Block)) :
    (allVis bs = [] →
      (runMsgs cfg ora initState (bs.map Msg.assistant ++ [Msg.result])).1.totalSteps = 0)
    ∧ (∀ t0 ts, allVis bs = t0 :: ts →
        (runMsgs cfg ora initState (bs.map Msg.assistant ++ [Msg.result])).1.totalSteps
            = totalStepsOf t0
          ∧ totalStepsOf t0
            = (if (planStepsOf t0).length == 0 then 6 else (planStepsOf t0).length)
          ∧ ("/v1.0/log/start".toList, startPayload cfg (totalStepsOf t0) (planStepsOf t0))
              ∈ postedEvents (mainTrace cfg ora (bs.map Msg.assistant ++ [Msg.result]))
          ∧ (∀ pr ∈ postedEvents (mainTrace cfg ora (bs.map Msg.assistant ++ [Msg.result])),
              pr.1 = "/v1.0/log/start".toList →
              lookupField pr.2 "totalSteps".toList = some (JVal.i (totalStepsOf t0)))
          ∧ ∀ pay ∈ stepEvents (mainTrace cfg ora (bs.map Msg.assistant ++ [Msg.result])),
              lookupField pay "totalSteps".toList = some (JVal.i (totalStepsOf t0)))
    ∧ (∀ pay ∈ pushEvents (mainTrace cfg ora (bs.map Msg.assistant ++ [Msg.result])),
        lookupField pay "totalSteps".toList = none)
    ∧ (∀ pr ∈ postedEvents (mainTrace cfg ora (bs.map Msg.assistant ++ [Msg.result])),
        ¬ pr.1 = "/v1.0/log/step".toList → ¬ pr.1 = "/v1.0/log/start".toList →
        lookupField pr.2 "totalSteps".toList = none) := by
  refine ⟨?_, ?_, ?_, ?_⟩
  · intro hv
    rw [run_state_nil cfg ora bs hv]
    rfl
  · intro t0 ts hv
    refine ⟨?_, rfl, mainTrace_start_mem cfg ora bs t0 ts hv,
      mainTrace_start_total cfg ora bs t0 ts hv, ?_⟩
    · rw [run_state_cons cfg ora bs t0 ts hv]
    · intro pay h
      rw [run_stepEvents_cons cfg ora bs t0 ts hv] at h
      rcases List.mem_append.1 h with h1 | h2
      · exact stepPays_lookup_total cfg _ _ ts 0 pay h1
      · rw [List.mem_singleton] at h2
        subst h2
        exact lookup_stepPayload_total cfg ts.length (totalStepsOf t0) true _
  · intro pay h
    obtain ⟨j, s, rfl⟩ := mainTrace_pushEvents_mem cfg ora bs pay h
    exact lookup_pushPayload_total cfg j s
  · exact mainTrace_posted_total cfg ora bs

/-- Witness for C8: a one-step plan fixes `total_steps = 1`; the start
event of the run carries it, while the push event and the done event the
run emits have no `totalSteps` field. -/
theorem C8_total_steps_witness :
    (runMsgs sampleCfg sampleOra initState (wBs.map Msg.assistant ++ [Msg.result])).1.totalSteps
      = 1
    ∧ pushPayload sampleCfg 0 "Doing".toList
        ∈ pushEvents (mainTrace sampleCfg sampleOra (wBs.map Msg.assistant ++ [Msg.result]))
    ∧ lookupField (pushPayload sampleCfg 0 "Doing".toList) "totalSteps".toList = none
    ∧ lookupField (startPayload sampleCfg 1 ["A".toList]) "totalSteps".toList
        = some (JVal.i 1)
    ∧ lookupField (donePayload sampleCfg sampleOra) "totalSteps".toList = none := by
  refine ⟨?_, by decide, ?_, ?_, ?_⟩
  · have h := (C8_total_steps sampleCfg sampleOra wBs).2.1 "1. A".toList
      ["[STEP 1/1] Doing".toList] (by decide)
    exact h.1.trans (by decide)
  · exact (C8_total_steps sampleCfg sampleOra wBs).2.2.1 _ (by decide)
  · have h := (C8_total_steps sampleCfg sampleOra wBs).2.1 "1. A".toList
      ["[STEP 1/1] Doing".toList] (by decide)
    have h2 := h.2.2.2.1
      ("/v1.0/log/start".toList, startPayload sampleCfg 1 ["A".toList]) (by decide) rfl
    exact h2.trans (by decide)
  · exact (C8_total_steps sampleCfg sampleOra wBs).2.2.2
      ("/v1.0/log/done".toList, donePayload sampleCfg sampleOra)
      (by decide) (by decide) (by decide)

/-- Counterexample for C8 as stated: in a concrete run the push events
do not carry `totalSteps` in their payload, so it is not true that every
event emitted after the plan is parsed carries it. -/
theorem C8_counterexample :
    ¬ (∀ pay ∈ pushEvents (mainTrace sampleCfg sampleOra (wBs.map Msg.assistant ++ [Msg.result])),
        (lookupField pay "totalSteps".toList).isSome = true) := by
  decide

/-- Claim C6 (amended).  The terminal `done` event is the last action of
every run; its `success` flag is `bool(repo_url or not github_token)` —
true exactly when a repository URL was configured or no push credential
was supplied, regardless of whether the remote was ever reached — so a
job whose publishes never had a credential is reported successful, and the
`error` field on this path is always `None`. -/
theorem C6_done_success (cfg : Config) (ora : Oracle) (msgs : List Msg) :
    ((mainTrace cfg ora msgs).getLast?
      = some (Action.post "/v1.0/log/done".toList (donePayload cfg ora)))
    ∧ (lookupField (donePayload cfg ora) "success".toList
      = some (JVal.b (truthy cfg.repoUrl || !truthy cfg.githubToken)))
    ∧ (truthy cfg.githubToken = false →
        lookupField (donePayload cfg ora) "success".toList = some (JVal.b true))
    ∧ (lookupField (donePayload cfg ora) "error".toList = some JVal.null) := by
  refine ⟨?_, rfl, ?_, rfl⟩
  · unfold mainTrace
    rw [List.getLast?_concat]
  · intro h
    have he : lookupField (donePayload cfg ora) "success".toList
        = some (JVal.b (truthy cfg.repoUrl || !truthy cfg.githubToken)) := rfl
    rw [he, h]
    simp

/-- Witness for C6: a job with no push credential configured reports
`success = true`. -/
theorem C6_done_success_witness :
    truthy noRemoteCfg.githubToken = false ∧
    lookupField (donePayload noRemoteCfg sampleOra) "success".toList
      = some (JVal.b true) :=
  ⟨by decide, (C6_done_success noRemoteCfg sampleOra []).2.2.1 (by decide)⟩

/-- Counterexample for C6 as stated: with a repository URL and credential
configured but every push failing (remote never reached, no push event),
the done event still reports `success = true`, refuting "success iff the
remote was configured and reached, or no remote was requested at all". -/
theorem C6_counterexample :
    (lookupField (donePayload sampleCfg pushFailOra) "success".toList = some (JVal.b true))
    ∧ pushEvents (mainTrace sampleCfg pushFailOra sampleMsgs) = []
    ∧ sampleCfg.repoUrl.isSome = true ∧ sampleCfg.githubToken.isSome = true
    ∧ ¬ ((lookupField (donePayload sampleCfg pushFailOra) "success".toList
          = some (JVal.b true)) ↔
        ((sampleCfg.repoUrl.isSome = true
            ∧ pushEvents (mainTrace sampleCfg pushFailOra sampleMsgs) ≠ [])
          ∨ (sampleCfg.repoUrl = none ∧ sampleCfg.githubToken = none))) := by
  decide
end Treemux
